import Mathlib
set_option maxRecDepth 100000
set_option maxHeartbeats 1000000
set_option linter.unusedVariables false
set_option linter.unreachableTactic false
set_option linter.unusedTactic false

namespace Relayer

/-!
Verification development for the transaction-receipt-relayer core: the RLP
encoders for Ethereum primitives, receipts and block headers, the iterative
Patricia-Merkle-Trie builder, the Merkle-proof generator and verifier, and
the EventProof envelope validator.

Bytes are modelled as `Nat` values below 256, byte strings as `List Nat`,
and 64-bit lanes as `Nat` reduced mod 2^64.
-/
/-! ### Big-endian integers and RLP primitives (alloy_rlp) -/
/-- Fuel-driven helper for `beBytes`; structural recursion on the fuel keeps
the definition kernel-reducible. -/
def beBytesAux : Nat → Nat → List Nat
  | 0, _ => []
  | fuel + 1, n => if n = 0 then [] else beBytesAux fuel (n / 256) ++ [n % 256]

/-- Minimal big-endian byte representation of a natural number; the empty
list for zero (matches alloy's stripping of leading zero bytes). -/
def beBytes (n : Nat) : List Nat :=
  beBytesAux n n

/-- alloy_rlp::length_of_length: the size in bytes of the RLP header for a
payload of the given length. -/
def length_of_length (payloadLength : Nat) : Nat :=
  if payloadLength < 56 then 1 else 1 + (beBytes payloadLength).length

/-- alloy_rlp::Header::encode: the header bytes preceding a string or list
payload of the given length. -/
def headerBytes (isList : Bool) (payloadLength : Nat) : List Nat :=
  if payloadLength < 56 then [(if isList then 0xc0 else 0x80) + payloadLength]
  else ((if isList then 0xf7 else 0xb7) + (beBytes payloadLength).length) :: beBytes payloadLength

/-- RLP encoding of a byte string (alloy's Encodable for byte slices): a
single byte below 0x80 encodes as itself, otherwise a header is prepended. -/
def rlpString (s : List Nat) : List Nat :=
  if s.length = 1 ∧ s.headI < 0x80 then s else headerBytes false s.length ++ s

/-- RLP encoding of a bool (alloy): true is 0x01, false is the empty string. -/
def rlpBool (b : Bool) : List Nat :=
  if b then [0x01] else [0x80]

/-- RLP encoding of a u64 (alloy): the string encoding of its minimal
big-endian bytes. -/
def rlpU64 (n : Nat) : List Nat :=
  rlpString (beBytes n)

/-- alloy's length() for a u64. -/
def u64Length (n : Nat) : Nat :=
  if n < 0x80 then 1 else 1 + (beBytes n).length

/-! ### keccak-256

Modelled from the spec: the glossary defines keccak-256 as the 256-bit hash
function Ethereum uses (the original Keccak padding, not NIST SHA-3); the
implementation the repository uses lives in the external keccak_hash crate.
Lanes are 64-bit words as Nat mod 2^64; the rate is 1088 bits (136 bytes). -/
def u64Mask : Nat := 0xffffffffffffffff

/-- Left-rotation of a 64-bit lane. -/
def rotl64 (x n : Nat) : Nat :=
  ((x <<< n) ||| (x >>> (64 - n))) &&& u64Mask

/-- Rho step rotation offsets, flattened at index x + 5 * y: generated by
the standard lane walk (x, y) ← (y, 2x + 3y mod 5) from (1, 0), assigning
the triangular number (t+1)(t+2)/2 mod 64 to the t-th visited lane. -/
def rhoOffsets : List Nat :=
  ((List.range 24).foldl
    (fun st t =>
      ((st.1.2, (2 * st.1.1 + 3 * st.1.2) % 5),
        st.2.set (st.1.1 + 5 * st.1.2) (((t + 1) * (t + 2) / 2) % 64)))
    (((1, 0) : Nat × Nat), List.replicate 25 0)).2

/-- Keccak round constants. -/
def keccakRC : List Nat :=
  [0x0000000000000001, 0x0000000000008082, 0x800000000000808a, 0x8000000080008000,
   0x000000000000808b, 0x0000000080000001, 0x8000000080008081, 0x8000000000008009,
   0x000000000000008a, 0x0000000000000088, 0x0000000080008009, 0x000000008000000a,
   0x000000008000808b, 0x800000000000008b, 0x8000000000008089, 0x8000000000008003,
   0x8000000000008002, 0x8000000000000080, 0x000000000000800a, 0x800000008000000a,
   0x8000000080008081, 0x8000000000008080, 0x0000000080000001, 0x8000000080008008]

/-- Theta step of keccak-f[1600]. -/
def keccakTheta (A : List Nat) : List Nat :=
  let C := (List.range 5).map fun x =>
    A.getD x 0 ^^^ A.getD (x + 5) 0 ^^^ A.getD (x + 10) 0 ^^^
      A.getD (x + 15) 0 ^^^ A.getD (x + 20) 0
  let D := (List.range 5).map fun x =>
    C.getD ((x + 4) % 5) 0 ^^^ rotl64 (C.getD ((x + 1) % 5) 0) 1
  (List.range 25).map fun i => A.getD i 0 ^^^ D.getD (i % 5) 0

/-- Combined rho and pi steps of keccak-f[1600]. -/
def keccakRhoPi (A : List Nat) : List Nat :=
  (List.range 25).foldl
    (fun B i =>
      let x := i % 5
      let y := i / 5
      B.set (y + 5 * ((2 * x + 3 * y) % 5)) (rotl64 (A.getD i 0) (rhoOffsets.getD i 0)))
    (List.replicate 25 0)

/-- Chi step of keccak-f[1600]. -/
def keccakChi (A : List Nat) : List Nat :=
  (List.range 25).map fun i =>
    let x := i % 5
    let y := i / 5
    A.getD i 0 ^^^ ((A.getD ((x + 1) % 5 + 5 * y) 0 ^^^ u64Mask) &&& A.getD ((x + 2) % 5 + 5 * y) 0)

/-- One round of keccak-f[1600] (iota folded in). -/
def keccakRound (A : List Nat) (rc : Nat) : List Nat :=
  let B := keccakChi (keccakRhoPi (keccakTheta A))
  B.set 0 (B.getD 0 0 ^^^ rc)

/-- The keccak-f[1600] permutation: 24 rounds. -/
def keccakF (A : List Nat) : List Nat :=
  keccakRC.foldl keccakRound A

/-- Interpret up to eight bytes as a little-endian 64-bit lane. -/
def laneOfBytes (l : List Nat) : Nat :=
  l.foldr (fun b acc => b + 256 * acc) 0

/-- The eight little-endian bytes of a 64-bit lane. -/
def laneToBytes (x : Nat) : List Nat :=
  (List.range 8).map fun k => (x >>> (8 * k)) &&& 0xff

/-- Absorb one 136-byte block into the sponge state and permute. -/
def absorbBlock (S : List Nat) (block : List Nat) : List Nat :=
  keccakF <| (List.range 25).map fun i =>
    if i < 17 then S.getD i 0 ^^^ laneOfBytes ((block.drop (8 * i)).take 8) else S.getD i 0

/-- Absorb a padded message rate-block by rate-block; structural recursion on
the fuel keeps the definition kernel-reducible. -/
def absorbChunks : Nat → List Nat → List Nat → List Nat
  | 0, S, _ => S
  | fuel + 1, S, l =>
    if l = [] then S else absorbChunks fuel (absorbBlock S (l.take 136)) (l.drop 136)

/-- keccak-256 of a byte string: multi-rate pad with domain byte 0x01,
absorb, and squeeze the first 32 bytes of the state. -/
def keccak256 (msg : List Nat) : List Nat :=
  let padLen := 136 - msg.length % 136
  let padded := msg ++
    (if padLen = 1 then [0x81] else 0x01 :: (List.replicate (padLen - 2) 0 ++ [0x80]))
  let S := absorbChunks padded.length (List.replicate 25 0) padded
  ((List.range 4).map fun i => laneToBytes (S.getD i 0)).flatten

/-! ### rlp_node and H256::from_slice -/
/-- types/src/encode.rs rlp_node: given an RLP-encoded node, emit the RLP
itself when it is shorter than 32 bytes, otherwise its keccak-256. -/
def rlp_node (rlp : List Nat) : List Nat :=
  if rlp.length < 32 then rlp else keccak256 rlp

/-- types/src/primitives.rs H256::from_slice: copy the slice into the front
of a zeroed 32-byte array.  Rust panics when the slice is longer than 32
bytes, so the result is an Option. -/
def from_slice (s : List Nat) : Option (List Nat) :=
  if s.length ≤ 32 then some (s ++ List.replicate (32 - s.length) 0) else none

/-- The total right-zero-padding that `from_slice` performs on slices of at
most 32 bytes (every `rlp_node` output qualifies, see `from_slice_rlp_node`). -/
def pad32 (s : List Nat) : List Nat :=
  s ++ List.replicate (32 - s.length) 0

/-! ### Nibble hex-prefix encoding (types/src/receipt/trie/nibble.rs) -/
/-- Nibbles::encode_path_leaf: hex-prefix encoding of a nibble sequence.
The first byte carries the leaf and parity flags (plus the first nibble when
the length is odd); the remaining nibbles are packed two per byte. -/
def encode_path_leaf (hexData : List Nat) (isLeaf : Bool) : List Nat :=
  let odd := hexData.length % 2 == 1
  let first :=
    match isLeaf, odd with
    | true, true => 0x30 ||| hexData.headI
    | true, false => 0x20
    | false, true => 0x10 ||| hexData.headI
    | false, false => 0x00
  let off := if odd then 1 else 0
  first :: (List.range (hexData.length / 2)).map fun j =>
    (hexData.getD (off + 2 * j) 0 <<< 4) + hexData.getD (off + 2 * j + 1) 0

/-! ### U256 RLP (types/src/primitives.rs) -/
/-- The number of leading zero bytes skipped by the strip loop in the U256
Encodable implementation. -/
def leadingZeros : List Nat → Nat
  | [] => 0
  | b :: t => if b = 0 then leadingZeros t + 1 else 0

/-- Encodable for U256: throw away leading zeros, then RLP-encode the
remaining big-endian byte slice. -/
def u256Encode (bytes : List Nat) : List Nat :=
  rlpString (bytes.drop (leadingZeros bytes))

/-- alloy's default length(): the length of the encoding. -/
def u256Length (bytes : List Nat) : Nat :=
  (u256Encode bytes).length

/-! ### Logs, receipts and the typed envelope
(types/src/receipt/log.rs, transaction_receipt.rs, tx_type.rs) -/
/-- RLP list framing: header for the total payload, then the concatenated
already-encoded items (how alloy's encode_list and the repository's custom
rlp_header impls lay out every list). -/
def rlpList (items : List (List Nat)) : List Nat :=
  headerBytes true (items.map List.length).sum ++ items.flatten

structure Log where
  address : List Nat
  topics : List (List Nat)
  data : List Nat
deriving DecidableEq, Repr

inductive TxType
  | Legacy
  | EIP2930
  | EIP1559
  | EIP4844
deriving DecidableEq, Repr

structure Receipt where
  tx_type : TxType
  success : Bool
  cumulative_gas_used : Nat
  logs : List Log
deriving DecidableEq, Repr

structure TransactionReceipt where
  bloom : List Nat
  receipt : Receipt
deriving DecidableEq, Repr

/-- Log::encode: an RLP list of [address, topics, data]. -/
def logRlp (lg : Log) : List Nat :=
  rlpList [rlpString lg.address, rlpList (lg.topics.map rlpString), rlpString lg.data]

/-- TxType::encode writes the discriminant as one raw byte. -/
def txTypeByte : TxType → Nat
  | .Legacy => 0
  | .EIP2930 => 1
  | .EIP1559 => 2
  | .EIP4844 => 3

/-- TransactionReceipt::encode_fields: the RLP of the 4-element list
[success, cumulative_gas_used, bloom, logs]. -/
def encode_fields (r : TransactionReceipt) : List Nat :=
  rlpList [rlpBool r.receipt.success, rlpU64 r.receipt.cumulative_gas_used,
    rlpString r.bloom, rlpList (r.receipt.logs.map logRlp)]

/-- TransactionReceipt::encode: Legacy emits the payload RLP directly;
typed receipts emit one type byte followed by the same payload RLP. -/
def transactionReceiptEncode (r : TransactionReceipt) : List Nat :=
  match r.receipt.tx_type with
  | .Legacy => encode_fields r
  | .EIP2930 => 0x01 :: encode_fields r
  | .EIP1559 => 0x02 :: encode_fields r
  | .EIP4844 => 0x03 :: encode_fields r

/-! ### BlockHeader RLP (types/src/block_header.rs) -/
/-- H64(nonce.to_be_bytes()): the eight big-endian bytes of a u64. -/
def be8 (n : Nat) : List Nat :=
  (List.range 8).map fun k => (n >>> (8 * (7 - k))) &&& 0xff

/-- U256::from(u64): 24 zero bytes then the eight big-endian bytes. -/
def u256FromU64 (n : Nat) : List Nat :=
  List.replicate 24 0 ++ be8 n

structure BlockHeader where
  parent_hash : List Nat
  ommers_hash : List Nat
  beneficiary : List Nat
  state_root : List Nat
  transactions_root : List Nat
  receipts_root : List Nat
  withdrawals_root : Option (List Nat)
  logs_bloom : List Nat
  difficulty : List Nat
  number : Nat
  gas_limit : Nat
  gas_used : Nat
  timestamp : Nat
  mix_hash : List Nat
  nonce : Nat
  base_fee_per_gas : Option Nat
  blob_gas_used : Option Nat
  excess_blob_gas : Option Nat
  parent_beacon_block_root : Option (List Nat)
  extra_data : List Nat
deriving DecidableEq, Repr

/-- The fifteen always-present header fields, in canonical order. -/
def headerFixedBytes (h : BlockHeader) : List Nat :=
  rlpString h.parent_hash ++ rlpString h.ommers_hash ++ rlpString h.beneficiary ++
    rlpString h.state_root ++ rlpString h.transactions_root ++ rlpString h.receipts_root ++
    rlpString h.logs_bloom ++ u256Encode h.difficulty ++
    u256Encode (u256FromU64 h.number) ++ u256Encode (u256FromU64 h.gas_limit) ++
    u256Encode (u256FromU64 h.gas_used) ++ rlpU64 h.timestamp ++
    rlpString h.extra_data ++ rlpString h.mix_hash ++ rlpString (be8 h.nonce)

/-- Base-fee position: the value, or a placeholder when a later optional is
present.  The placeholder goes through the encode! macro, i.e. through
alloy's Encodable for u8, which integer-encodes the constant 0x80 as the two
bytes [0x81, 0x80] (rlpU64 agrees with alloy's uint encoder on u8 values). -/
def optBaseFee (h : BlockHeader) : List Nat :=
  match h.base_fee_per_gas with
  | some bf => u256Encode (u256FromU64 bf)
  | none =>
    if h.withdrawals_root.isSome || h.blob_gas_used.isSome || h.excess_blob_gas.isSome ||
        h.parent_beacon_block_root.isSome then
      rlpU64 0x80
    else []

/-- Withdrawals-root position (placeholder byte EMPTY_STRING_CODE, again via
the u8 Encodable). -/
def optWithdrawalsRoot (h : BlockHeader) : List Nat :=
  match h.withdrawals_root with
  | some root => rlpString root
  | none =>
    if h.blob_gas_used.isSome || h.excess_blob_gas.isSome ||
        h.parent_beacon_block_root.isSome then
      rlpU64 0x80
    else []

/-- Blob-gas-used position (placeholder constant EMPTY_LIST_CODE = 0xc0, via
the u8 Encodable). -/
def optBlobGasUsed (h : BlockHeader) : List Nat :=
  match h.blob_gas_used with
  | some x => u256Encode (u256FromU64 x)
  | none =>
    if h.excess_blob_gas.isSome || h.parent_beacon_block_root.isSome then rlpU64 0xc0 else []

/-- Excess-blob-gas position (placeholder constant EMPTY_LIST_CODE). -/
def optExcessBlobGas (h : BlockHeader) : List Nat :=
  match h.excess_blob_gas with
  | some x => u256Encode (u256FromU64 x)
  | none => if h.parent_beacon_block_root.isSome then rlpU64 0xc0 else []

/-- Parent-beacon-block-root position (last optional; no placeholder). -/
def optParentBeaconRoot (h : BlockHeader) : List Nat :=
  match h.parent_beacon_block_root with
  | some root => rlpString root
  | none => []

/-- BlockHeader::header_payload_length: the payload length the encoder
declares in the list header.  Each absent-but-needed placeholder is counted
as exactly one byte. -/
def header_payload_length (h : BlockHeader) : Nat :=
  (rlpString h.parent_hash).length + (rlpString h.ommers_hash).length +
    (rlpString h.beneficiary).length + (rlpString h.state_root).length +
    (rlpString h.transactions_root).length + (rlpString h.receipts_root).length +
    (rlpString h.logs_bloom).length + (u256Encode h.difficulty).length +
    (u256Encode (u256FromU64 h.number)).length + (u256Encode (u256FromU64 h.gas_limit)).length +
    (u256Encode (u256FromU64 h.gas_used)).length + u64Length h.timestamp +
    (rlpString h.extra_data).length + (rlpString h.mix_hash).length +
    (rlpString (be8 h.nonce)).length +
    (match h.base_fee_per_gas with
     | some bf => (u256Encode (u256FromU64 bf)).length
     | none =>
       if h.withdrawals_root.isSome || h.blob_gas_used.isSome || h.excess_blob_gas.isSome ||
           h.parent_beacon_block_root.isSome then 1 else 0) +
    (match h.withdrawals_root with
     | some root => (rlpString root).length
     | none =>
       if h.blob_gas_used.isSome || h.excess_blob_gas.isSome ||
           h.parent_beacon_block_root.isSome then 1 else 0) +
    (match h.blob_gas_used with
     | some x => (u256Encode (u256FromU64 x)).length
     | none => if h.excess_blob_gas.isSome || h.parent_beacon_block_root.isSome then 1 else 0) +
    (match h.excess_blob_gas with
     | some x => (u256Encode (u256FromU64 x)).length
     | none => if h.parent_beacon_block_root.isSome then 1 else 0) +
    (match h.parent_beacon_block_root with
     | some root => (rlpString root).length
     | none => 0)

/-- The header body: fixed fields followed by the five optional positions. -/
def headerBodyBytes (h : BlockHeader) : List Nat :=
  headerFixedBytes h ++ optBaseFee h ++ optWithdrawalsRoot h ++ optBlobGasUsed h ++
    optExcessBlobGas h ++ optParentBeaconRoot h

/-- BlockHeader::encode: the list header computed from header_payload_length,
then the fields. -/
def blockHeaderEncode (h : BlockHeader) : List Nat :=
  headerBytes true (header_payload_length h) ++ headerBodyBytes h

/-- H256::hash(x) = keccak256(rlp(x)) for a block header. -/
def blockHeaderHash (h : BlockHeader) : List Nat :=
  keccak256 (blockHeaderEncode h)

/-- H256::hash(x) = keccak256(rlp(x)) for a transaction receipt. -/
def transactionReceiptHash (r : TransactionReceipt) : List Nat :=
  keccak256 (transactionReceiptEncode r)

/-- A header with base_fee_per_gas absent but withdrawals_root present: the
encoder must emit a placeholder in the base-fee position. -/
def headerMissingBaseFee : BlockHeader :=
  { parent_hash := List.replicate 32 0,
    ommers_hash := List.replicate 32 0,
    beneficiary := List.replicate 20 0,
    state_root := List.replicate 32 0,
    transactions_root := List.replicate 32 0,
    receipts_root := List.replicate 32 0,
    withdrawals_root := some (List.replicate 32 0),
    logs_bloom := List.replicate 256 0,
    difficulty := List.replicate 32 0,
    number := 0, gas_limit := 0, gas_used := 0, timestamp := 0,
    mix_hash := List.replicate 32 0, nonce := 0,
    base_fee_per_gas := none, blob_gas_used := none, excess_blob_gas := none,
    parent_beacon_block_root := none, extra_data := [] }

/-- A header with blob_gas_used absent but excess_blob_gas present: the
encoder must emit a placeholder in the blob-gas position. -/
def headerMissingBlobGas : BlockHeader :=
  { headerMissingBaseFee with
    base_fee_per_gas := some 7, excess_blob_gas := some 5 }

/-! ### The rich nibble paths used by the trie

Modelled from the spec: the Nibbles type consumed by merkle/src (types::
Nibbles, with from_raw, at, offset, slice, common_prefix and encode_compact)
is missing from the provided sources; the snapshot's nibble.rs holds only
the reduced hex-prefix encoder.  Following 4.2 of the spec and the cita-trie
lineage of trie.rs, a path is the hex expansion of the raw key bytes with
the end-of-path sentinel 0x10 materialised as a final element when
is_terminator is set, and at(i) yields the 0x10 sentinel at the end. -/
/-- Nibbles::from_raw. -/
def from_raw (key : List Nat) (isTerm : Bool) : List Nat :=
  (key.map fun b => [b / 16, b % 16]).flatten ++ if isTerm then [16] else []

/-- Nibbles::at, with the spec's at(len) = 0x10 sentinel convention. -/
def nibAt (nk : List Nat) (i : Nat) : Nat :=
  nk.getD i 16

/-- Nibbles::common_prefix. -/
def commonPrefixLen : List Nat → List Nat → Nat
  | x :: xs, y :: ys => if x = y then commonPrefixLen xs ys + 1 else 0
  | _, _ => 0

/-- Nibbles::encode_compact: hex-prefix encoding with the leaf flag taken
from the trailing terminator sentinel, which is stripped first. -/
def encode_compact (nk : List Nat) : List Nat :=
  if nk.getLast? = some 16 then encode_path_leaf nk.dropLast true
  else encode_path_leaf nk false

/-! ### Trie nodes (merkle/src/node.rs) -/
inductive Node where
  | empty : Node
  | leaf (key : List Nat) (value : List Nat) : Node
  | ext (pref : List Nat) (child : Node) : Node
  | branch (children : List Node) (value : Option (List Nat)) : Node
deriving Repr

mutual

def nodeBeq : Node → Node → Bool
  | .empty, .empty => true
  | .leaf k v, .leaf k' v' => k == k' && v == v'
  | .ext p c, .ext p' c' => p == p' && nodeBeq c c'
  | .branch ch val, .branch ch' val' => nodeListBeq ch ch' && val == val'
  | _, _ => false

def nodeListBeq : List Node → List Node → Bool
  | [], [] => true
  | x :: xs, y :: ys => nodeBeq x y && nodeListBeq xs ys
  | _, _ => false

end

mutual

/-- Node size, the termination measure for the trie operations. -/
def nsize : Node → Nat
  | .empty => 1
  | .leaf _ _ => 1
  | .ext p c => 1 + p.length + nsize c
  | .branch ch _ => 2 + nsizeList ch

def nsizeList : List Node → Nat
  | [] => 0
  | c :: rest => nsize c + nsizeList rest

end

/-- node.rs empty_children(). -/
def emptyChildren : List Node :=
  List.replicate 16 .empty

/-- Indexing into a branch's 16 children. -/
def getChild (ch : List Node) (i : Nat) : Node :=
  ch.getD i .empty

def setChild (ch : List Node) (i : Nat) (n : Node) : List Node :=
  ch.set i n

/-- The value stored in a leaf (BranchNode::insert at index 16 takes the
leaf's value; a non-leaf argument panics in Rust and never occurs). -/
def leafValueOf : Node → Option (List Nat)
  | .leaf _ v => some v
  | _ => none

/-- node.rs BranchNode::insert: index 16 stores the leaf's value in the
value slot, any other index stores the node in that child slot. -/
def branchInsert (ch : List Node) (val : Option (List Nat)) (i : Nat) (n : Node) :
    List Node × Option (List Nat) :=
  if i = 16 then (ch, leafValueOf n) else (setChild ch i n, val)

/-! ### Iterative insertion (merkle/src/trie.rs insert_at_iterative)

The iterative loop of insert_at_iterative pushes the visited nodes on a
queue and relinks them leaf-to-root afterwards; that is exactly the
recursion below.  Structural recursion on a fuel argument (any fuel of at
least nsize suffices, see insertAtF_fuel) keeps the function
kernel-reducible; fuel 0 is never reached. -/
def insertAtF : Nat → Node → List Nat → List Nat → Node
  | 0, n, _, _ => n
  | fuel + 1, n, pk, v =>
    match n with
    | .empty => .leaf pk v
    | .leaf k' v' =>
      let m := commonPrefixLen pk k'
      -- same key: replace the value in place
      if m = k'.length then .leaf k' v
      else
        -- split into a branch holding the old and the new leaf
        let p1 := branchInsert emptyChildren none (nibAt k' m) (.leaf (k'.drop (m + 1)) v')
        let p2 := branchInsert p1.1 p1.2 (nibAt pk m) (.leaf (pk.drop (m + 1)) v)
        if m = 0 then .branch p2.1 p2.2
        else .ext (pk.take m) (.branch p2.1 p2.2)
    | .branch ch val =>
      if nibAt pk 0 = 16 then .branch ch (some v)
      else
        let i := nibAt pk 0
        .branch (setChild ch i (insertAtF fuel (getChild ch i) (pk.drop 1) v)) val
    | .ext p c =>
      let m := commonPrefixLen pk p
      if m = 0 then
        -- no shared prefix: the node becomes a branch holding the wrapped
        -- child, and the loop re-enters it with the same partial key; that
        -- branch step is taken immediately here (a 0- or 1-length source
        -- prefix panics in Rust before reaching the wrap, hence the ≤ 1)
        let wrapped := if p.length ≤ 1 then c else .ext (p.drop 1) c
        let pr := branchInsert emptyChildren none (nibAt p 0) wrapped
        if nibAt pk 0 = 16 then .branch pr.1 (some v)
        else
          let i := nibAt pk 0
          .branch (setChild pr.1 i (insertAtF fuel (getChild pr.1 i) (pk.drop 1) v)) pr.2
      else if m = p.length then .ext p (insertAtF fuel c (pk.drop m) v)
      else .ext (p.take m) (insertAtF fuel (.ext (p.drop m) c) (pk.drop m) v)

/-- PatriciaTrie::insert_at_iterative. -/
def insertAt (n : Node) (pk v : List Nat) : Node :=
  insertAtF (nsize n) n pk v

/-- IterativeTrie::insert for PatriciaTrie: expand the key with the
terminator and insert at the root. -/
def trieInsert (t : Node) (key value : List Nat) : Node :=
  insertAt t (from_raw key true) value

/-- Insert a list of (key, value) pairs into a fresh trie, first to last. -/
def insertList (pairs : List (List Nat × List Nat)) : Node :=
  pairs.foldl (fun t kv => trieInsert t kv.1 kv.2) .empty

/-! ### Node encoding (merkle/src/trie.rs encode_node) -/
/-- types::BranchNode as encoded by branch.rs: list header counting 33 per
present child hash, 1 per absent one and a flat 1 for the value slot; each
present hash as a 33-byte string, EMPTY_STRING_CODE for absent ones; the
value bytes appended raw (not re-encoded, and not accounted in the header);
rlp_node is applied by the caller below. -/
def branchRaw (entries : List (Option (List Nat))) (val : Option (List Nat)) : List Nat :=
  let payload := 1 + (entries.map fun e =>
    match e with
    | some h => (rlpString h).length
    | none => 1).sum
  headerBytes true payload ++
    (entries.map fun e =>
      match e with
      | some h => rlpString h
      | none => [0x80]).flatten ++
    (match val with
     | some v => v
     | none => [0x80])

/-- The RLP list [hex_prefix(key), value] of a leaf (LeafEncoder), before
rlp_node. -/
def leafRaw (compactKey value : List Nat) : List Nat :=
  rlpList [rlpString compactKey, rlpString value]

/-- The RLP list [hex_prefix(prefix, leaf=false), pointer] of an extension
node (types::ExtensionNode), before rlp_node; the pointer is always a
32-byte H256 obtained from from_slice and encodes as a 33-byte string. -/
def extRaw (pref : List Nat) (pointer : List Nat) : List Nat :=
  rlpList [rlpString (encode_path_leaf pref false), rlpString pointer]

mutual

/-- PatriciaTrie::encode_node: post-order encoding.  Every composite node
passes through rlp_node (hash once the RLP reaches 32 bytes); child hashes
enter the parent as 32-byte H256 values through H256::from_slice, i.e.
zero-padded when the child RLP is inline (from_slice_rlp_node). -/
def encodeNode : Node → List Nat
  | .empty => [0x80]
  | .leaf k v => rlp_node (leafRaw (encode_compact k) v)
  | .ext p c => rlp_node (extRaw p (pad32 (encodeNode c)))
  | .branch ch val => rlp_node (branchRaw (encodeChildren ch) val)

/-- The 16 child slots of a branch: None for an empty child (its encoding is
the single byte 0x80), otherwise the padded child encoding. -/
def encodeChildren : List Node → List (Option (List Nat))
  | [] => []
  | c :: rest =>
    (let e := encodeNode c
     if e.length = 1 then none else some (pad32 e)) :: encodeChildren rest

end

/-- The trie root hash: the padded root encoding (the root of a receipt trie
always hashes, so this is its keccak; tiny tries are zero-padded). -/
def rootHash (t : Node) : List Nat :=
  pad32 (encodeNode t)

/-! ### Merkle proof generation (merkle/src/trie.rs merkle_proof) -/
/-- types::MerkleProofNode as produced by trie.rs: extension frames carry
the prefix nibbles, branch frames the 16 sibling hashes, the on-path index
and the branch value. -/
inductive MerkleProofNode where
  | extensionNode (pref : List Nat) : MerkleProofNode
  | branchNode (branches : List (Option (List Nat))) (index : Nat)
      (value : Option (List Nat)) : MerkleProofNode
deriving DecidableEq, Repr

/-- types::MerkleProof: the root-to-leaf frames plus the raw proving key. -/
structure MerkleProof where
  proof : List MerkleProofNode
  key : List Nat
deriving DecidableEq, Repr

/-- The walk of merkle_proof, fuel-structural like insertAtF.  At a branch
whose on-path slot is the value slot (key.at(0) = 16) the Rust code indexes
children[16] and panics, hence the Option. -/
def walkProofF : Nat → Node → List Nat → Option (List MerkleProofNode)
  | 0, _, _ => none
  | fuel + 1, n, key =>
    match n with
    | .empty => some []
    | .leaf _ _ => some []
    | .ext p c =>
      (walkProofF fuel c (key.drop (commonPrefixLen key p))).map fun fs =>
        .extensionNode p :: fs
    | .branch ch val =>
      let i := nibAt key 0
      if i = 16 then none
      else
        let branches := (List.range 16).map fun j =>
          if j = i then none
          else
            let e := encodeNode (getChild ch j)
            if e.length = 1 then none else some (pad32 e)
        (walkProofF fuel (getChild ch i) (key.drop 1)).map fun fs =>
          .branchNode branches i val :: fs

def walkProof (n : Node) (key : List Nat) : Option (List MerkleProofNode) :=
  walkProofF (nsize n) n key

/-- IterativeTrie::merkle_proof. -/
def merkle_proof (t : Node) (provingKey : List Nat) : Option MerkleProof :=
  (walkProof t (from_raw provingKey true)).map fun fs => ⟨fs, provingKey⟩

/-! ### Lookup abstractions used to state the claims -/
/-- The value stored for a nibble path when the walk terminates exactly at a
leaf (the only shape merkle_proof can prove). -/
def lookupLeafF : Nat → Node → List Nat → Option (List Nat)
  | 0, _, _ => none
  | fuel + 1, n, nk =>
    match n with
    | .empty => none
    | .leaf k v => if nk = k then some v else none
    | .ext p c =>
      if commonPrefixLen nk p = p.length then lookupLeafF fuel c (nk.drop p.length) else none
    | .branch ch _ =>
      if nibAt nk 0 = 16 then none else lookupLeafF fuel (getChild ch (nibAt nk 0)) (nk.drop 1)

def lookupLeaf (n : Node) (nk : List Nat) : Option (List Nat) :=
  lookupLeafF (nsize n) n nk

/-- The finite map a trie represents, keyed by terminated nibble paths;
values ending at a branch value slot included. -/
def toMapF : Nat → Node → List Nat → Option (List Nat)
  | 0, _, _ => none
  | fuel + 1, n, nk =>
    match n with
    | .empty => none
    | .leaf k v => if nk = k then some v else none
    | .ext p c =>
      if commonPrefixLen nk p = p.length then toMapF fuel c (nk.drop p.length) else none
    | .branch ch val =>
      if nibAt nk 0 = 16 then val else toMapF fuel (getChild ch (nibAt nk 0)) (nk.drop 1)

def toMap (n : Node) (nk : List Nat) : Option (List Nat) :=
  toMapF (nsize n) n nk

/-! ### Merkle-proof verification

Modelled from the spec: 4.7's verification (and the shape of the snapshot's
older ReceiptMerkleProof::merkle_root in receipt/receipt_merkle_proof.rs);
the verifier for the MerkleProof type that trie.rs actually produces (branch
frames carrying the value, the raw key in the proof) is missing from the
provided sources.  Step 1 walks the proof forward stripping nibbles, step 2
hashes the reconstructed leaf, step 3 folds backward over the frames; each
intermediate hash goes through rlp_node and H256::from_slice. -/
/-- Step 1: the nibble suffix left for the leaf. -/
def stripFrames (frames : List MerkleProofNode) (nk : List Nat) : List Nat :=
  frames.foldl
    (fun r f =>
      match f with
      | .extensionNode p => r.drop p.length
      | .branchNode _ _ _ => r.drop 1)
    nk

/-- One backward fold step (step 3). -/
def foldStep (f : MerkleProofNode) (h : List Nat) : List Nat :=
  match f with
  | .extensionNode p => pad32 (rlp_node (extRaw p h))
  | .branchNode branches index val =>
    pad32 (rlp_node (branchRaw (branches.set (index &&& 0x0f) (some h)) val))

/-- ReceiptMerkleProof::merkle_root (spec 4.7): recompute the claimed root
from the proof and the leaf value. -/
def merkle_root (pf : MerkleProof) (value : List Nat) : List Nat :=
  let keyNibs := from_raw pf.key false
  let remaining := stripFrames pf.proof keyNibs
  let leafHash := pad32 (rlp_node (leafRaw (encode_path_leaf remaining true) value))
  pf.proof.foldr foldStep leafHash

/-! ### Well-formedness invariants maintained by insertion -/
/-- A terminated nibble path: nibbles below 16 ending in the 0x10 sentinel. -/
def isValidPath (nk : List Nat) : Bool :=
  nk.dropLast.all (· < 16) && nk.getLast? == some 16

def isEmptyNode : Node → Bool
  | .empty => true
  | _ => false

def isBranchNode : Node → Bool
  | .branch _ _ => true
  | _ => false

/-- The number of occupied slots of a branch (children plus value). -/
def occupiedCount (ch : List Node) (val : Option (List Nat)) : Nat :=
  (ch.filter fun n => !isEmptyNode n).length + (if val.isSome then 1 else 0)

mutual

/-- The spec's structural invariants (3): leaf keys are terminated paths;
extension prefixes are nonempty, sentinel-free and point at branches;
branches have 16 children and at least two occupied slots. -/
def wfB : Node → Bool
  | .empty => true
  | .leaf k _ => isValidPath k
  | .ext p c => !p.isEmpty && p.all (· < 16) && isBranchNode c && wfB c
  | .branch ch val => ch.length == 16 && wfListB ch && decide (2 ≤ occupiedCount ch val)

def wfListB : List Node → Bool
  | [] => true
  | c :: rest => wfB c && wfListB rest

end

/-- The per-pair action of an insertion on the represented map at a fixed
path: the last write to the path wins. -/
def insStep (nk : List Nat) (acc : Option (List Nat))
    (kv : List Nat × List Nat) : Option (List Nat) :=
  if nk = from_raw kv.1 true then some kv.2 else acc

/-! ### BranchNode codec (types/src/receipt/trie/branch.rs) -/
/-- types::BranchNode::encode: build the raw 17-slot list (header declared
from the per-slot hash lengths, present hashes RLP-encoded, absent slots
and an absent value as EMPTY_STRING_CODE, a present value appended raw)
and pass it through rlp_node. -/
def branchNodeEncode (branches : List (Option (List Nat)))
    (value : Option (List Nat)) : List Nat :=
  rlp_node (branchRaw branches value)

/-- types::BranchNode::length: length_of_length of the declared payload
plus the payload; neither the value bytes nor the rlp_node reduction are
accounted. -/
def branchNodeLength (branches : List (Option (List Nat))) : Nat :=
  let payload := 1 + (branches.map fun e =>
    match e with
    | some h => (rlpString h).length
    | none => 1).sum
  length_of_length payload + payload

/-! ### EventProof validation (spec 4.8, 6.1, 7) -/
/-- Modelled from the spec: the EventProof envelope of 6.1 with its
normative field names; the implemented validate() is not part of the
provided sources (src/types/src/lib.rs holds only an unimplemented
prototype). -/
structure EventProof where
  block_header : BlockHeader
  block_hash : List Nat
  transaction_receipt : TransactionReceipt
  transaction_receipt_hash : List Nat
  merkle_proof_of_receipt : MerkleProof
deriving DecidableEq, Repr

/-- Modelled from the spec: the three error kinds of 7, each carrying the
expected (claimed) and actual (recomputed) 32-byte values. -/
inductive ValidationError where
  | IncorrectBodyHash (expected actual : List Nat)
  | IncorrectReceiptHash (expected actual : List Nat)
  | IncorrectReceiptRoot (expected actual : List Nat)
deriving DecidableEq, Repr

/-- Modelled from the spec: EventProof::validate per 4.8 — check the
header hash, then the receipt hash, then the Merkle-recomputed root
against the header's receipts_root; pure, total, and first failure
wins. -/
def validate (p : EventProof) : Except ValidationError Unit :=
  if p.block_hash ≠ blockHeaderHash p.block_header then
    .error (.IncorrectBodyHash p.block_hash (blockHeaderHash p.block_header))
  else if p.transaction_receipt_hash ≠
      transactionReceiptHash p.transaction_receipt then
    .error (.IncorrectReceiptHash p.transaction_receipt_hash
      (transactionReceiptHash p.transaction_receipt))
  else if p.block_header.receipts_root ≠
      merkle_root p.merkle_proof_of_receipt
        (transactionReceiptEncode p.transaction_receipt) then
    .error (.IncorrectReceiptRoot p.block_header.receipts_root
      (merkle_root p.merkle_proof_of_receipt
        (transactionReceiptEncode p.transaction_receipt)))
  else
    .ok ()

theorem beBytesAux_eq_of_le (f f' n : Nat) (h : n ≤ f) (h' : n ≤ f') :
    beBytesAux f n = beBytesAux f' n := by
  induction f generalizing f' n with
  | zero =>
    interval_cases n
    cases f' <;> simp [beBytesAux]
  | succ f ih =>
    cases f' with
    | zero =>
      interval_cases n
      simp [beBytesAux]
    | succ f' =>
      simp only [beBytesAux]
      rcases eq_or_ne n 0 with rfl | hn
      · simp
      · have hd : n / 256 < n := Nat.div_lt_self (Nat.pos_of_ne_zero hn) (by omega)
        have h1 : n / 256 ≤ f := by omega
        have h2 : n / 256 ≤ f' := by omega
        rw [if_neg hn, if_neg hn, ih f' (n / 256) h1 h2]

/-- The defining recurrence of `beBytes`. -/
theorem beBytes_succ {n : Nat} (h : n ≠ 0) :
    beBytes n = beBytes (n / 256) ++ [n % 256] := by
  have hd : n / 256 < n := Nat.div_lt_self (Nat.pos_of_ne_zero h) (by omega)
  cases n with
  | zero => exact absurd rfl h
  | succ m =>
    show beBytesAux (m + 1) (m + 1) = _
    simp only [beBytesAux, if_neg h]
    rw [beBytesAux_eq_of_le m ((m + 1) / 256) ((m + 1) / 256) (by omega) le_rfl]
    rfl

/-- Sanity check: keccak-256 of the empty string is the well-known constant. -/
example : keccak256 [] =
    [0xc5, 0xd2, 0x46, 0x01, 0x86, 0xf7, 0x23, 0x3c, 0x92, 0x7e, 0x7d, 0xb2,
     0xdc, 0xc7, 0x03, 0xc0, 0xe5, 0x00, 0xb6, 0x53, 0xca, 0x82, 0x27, 0x3b,
     0x7b, 0xfa, 0xd8, 0x04, 0x5d, 0x85, 0xa4, 0x70] := by decide

theorem keccak256_length (msg : List Nat) : (keccak256 msg).length = 32 := by
  unfold keccak256
  simp only [List.length_flatten, List.map_map]
  rw [show List.range 4 = [0, 1, 2, 3] from rfl]
  simp [laneToBytes]

theorem rlp_node_length_le (rlp : List Nat) : (rlp_node rlp).length ≤ 32 := by
  unfold rlp_node
  split
  · omega
  · simp [keccak256_length]

theorem from_slice_rlp_node (rlp : List Nat) :
    from_slice (rlp_node rlp) = some (pad32 (rlp_node rlp)) := by
  simp [from_slice, pad32, rlp_node_length_le]

theorem getD_map_range (f : Nat → Nat) (m j : Nat) (hj : j < m) :
    ((List.range m).map f).getD j 0 = f j := by
  rw [List.getD_eq_getElem?_getD, List.getElem?_map, List.getElem?_range hj]
  rfl

theorem encode_path_leaf_length (hexData : List Nat) (isLeaf : Bool) :
    (encode_path_leaf hexData isLeaf).length = hexData.length / 2 + 1 := by
  simp [encode_path_leaf]

/-- C7 counterexample: the claim predicts ceil(n/2)+1 output bytes, but for
the single nibble [1] the hex-prefix encoding is the one byte 0x31, not
ceil(1/2)+1 = 2 bytes. -/
theorem C7_counterexample :
    (encode_path_leaf [1] true).length ≠ ([1].length + 1) / 2 + 1 := by decide

/-- C7 (amended): for every nibble sequence with entries below 16,
encode_path_leaf(is_leaf) returns floor(n/2)+1 bytes (for odd n the first
nibble shares the flag byte, so the total is ceil(n/2), not ceil(n/2)+1);
the first byte is (is_leaf << 5) | (odd << 4) | (first nibble if n odd,
else 0), and the remaining nibbles are packed two per byte, high first. -/
theorem C7_encode_path_leaf (hexData : List Nat) (isLeaf : Bool)
    (h : ∀ x ∈ hexData, x < 16) :
    (encode_path_leaf hexData isLeaf).length = hexData.length / 2 + 1 ∧
    (encode_path_leaf hexData isLeaf).headI =
      ((if isLeaf then 1 else 0) <<< 5) ||| ((hexData.length % 2) <<< 4) |||
        (if hexData.length % 2 = 1 then hexData.headI else 0) ∧
    ∀ j < hexData.length / 2,
      (encode_path_leaf hexData isLeaf).getD (j + 1) 0 =
        16 * hexData.getD (2 * j + hexData.length % 2) 0 +
          hexData.getD (2 * j + 1 + hexData.length % 2) 0 := by
  refine ⟨encode_path_leaf_length hexData isLeaf, ?_, ?_⟩
  · rcases Nat.mod_two_eq_zero_or_one hexData.length with hpar | hpar <;>
      cases isLeaf <;>
      simp [encode_path_leaf, hpar, Nat.shiftLeft_eq] <;> rfl
  · intro j hj
    simp only [encode_path_leaf, List.getD_cons_succ]
    rw [getD_map_range _ _ _ hj]
    rcases Nat.mod_two_eq_zero_or_one hexData.length with hpar | hpar
    · simp only [hpar, Nat.shiftLeft_eq]
      norm_num
      ring
    · simp only [hpar, Nat.shiftLeft_eq]
      norm_num
      have e1 : 1 + 2 * j = 2 * j + 1 := by ring
      rw [e1]
      ring

/-- Witness for C7 at the repository's own test vector [6,4,6,15]. -/
theorem C7_witness :
    (∀ x ∈ [6, 4, 6, 15], x < 16) ∧ (encode_path_leaf [6, 4, 6, 15] true).length = 3 :=
  ⟨by decide, by
    have h := C7_encode_path_leaf [6, 4, 6, 15] true (by decide)
    simpa using h.1⟩

theorem drop_leadingZeros (l : List Nat) :
    l.drop (leadingZeros l) = l.dropWhile (fun b => b == 0) := by
  induction l with
  | nil => rfl
  | cons b t ih =>
    by_cases hb : b = 0
    · simpa [leadingZeros, hb, List.dropWhile_cons] using ih
    · simp [leadingZeros, hb, List.dropWhile_cons]

/-- C8: a U256 RLP-encodes as the string encoding of its 32 big-endian bytes
with all leading zero bytes removed; zero encodes as the single byte 0x80. -/
theorem C8_u256_rlp (bytes : List Nat) (h : bytes.length = 32) :
    u256Encode bytes = rlpString (bytes.dropWhile (fun b => b == 0)) ∧
    u256Encode (List.replicate 32 0) = [0x80] :=
  ⟨by rw [u256Encode, drop_leadingZeros], by decide⟩

/-- Witness for C8 at a concrete 32-byte value. -/
theorem C8_witness :
    (List.replicate 31 0 ++ [5]).length = 32 ∧
    u256Encode (List.replicate 31 0 ++ [5]) =
      rlpString ((List.replicate 31 0 ++ [5]).dropWhile (fun b => b == 0)) :=
  ⟨by decide, (C8_u256_rlp (List.replicate 31 0 ++ [5]) (by decide)).1⟩

/-- C5: the receipt envelope.  A Legacy receipt encodes as exactly the RLP of
the 4-element list [success, cumulative_gas_used, bloom, logs] with no
framing; EIP2930/EIP1559/EIP4844 receipts emit exactly one leading type byte
(0x01/0x02/0x03) followed by that same list RLP, with no outer wrapping. -/
theorem C5_receipt_envelope (r : TransactionReceipt) :
    (r.receipt.tx_type = TxType.Legacy → transactionReceiptEncode r = encode_fields r) ∧
    (r.receipt.tx_type = TxType.EIP2930 →
      transactionReceiptEncode r = 0x01 :: encode_fields r) ∧
    (r.receipt.tx_type = TxType.EIP1559 →
      transactionReceiptEncode r = 0x02 :: encode_fields r) ∧
    (r.receipt.tx_type = TxType.EIP4844 →
      transactionReceiptEncode r = 0x03 :: encode_fields r) ∧
    encode_fields r =
      headerBytes true
          ((rlpBool r.receipt.success).length +
            ((rlpU64 r.receipt.cumulative_gas_used).length +
              ((rlpString r.bloom).length + ((rlpList (r.receipt.logs.map logRlp)).length + 0)))) ++
        (rlpBool r.receipt.success ++ (rlpU64 r.receipt.cumulative_gas_used ++
          (rlpString r.bloom ++ (rlpList (r.receipt.logs.map logRlp) ++ [])))) := by
  refine ⟨?_, ?_, ?_, ?_, ?_⟩ <;>
    first
      | (intro ht; simp [transactionReceiptEncode, ht])
      | simp [encode_fields, rlpList]

/-- Witness for C5 at concrete Legacy and EIP1559 receipts. -/
theorem C5_witness :
    (let r : TransactionReceipt :=
      { bloom := List.replicate 256 0,
        receipt := { tx_type := TxType.EIP1559, success := true,
                     cumulative_gas_used := 21000, logs := [] } }
     transactionReceiptEncode r = 0x02 :: encode_fields r) := by
  exact (C5_receipt_envelope _).2.2.1 rfl

/-- The repository's EIP-2481 test vector: the canonical Legacy receipt
encoding reproduced byte for byte (transaction_receipt.rs tests). -/
theorem receipt_eip2481_vector :
    transactionReceiptEncode
      { bloom := List.replicate 256 0,
        receipt :=
          { tx_type := TxType.Legacy, success := false, cumulative_gas_used := 1,
            logs := [{ address := List.replicate 19 0 ++ [0x11],
                       topics := [List.replicate 30 0 ++ [0xde, 0xad],
                                  List.replicate 30 0 ++ [0xbe, 0xef]],
                       data := [0x01, 0x00, 0xff] }] } } =
    [0xf9, 0x01, 0x66, 0x80, 0x01, 0xb9, 0x01, 0x00] ++ List.replicate 256 0 ++
      [0xf8, 0x5f, 0xf8, 0x5d, 0x94] ++ (List.replicate 19 0 ++ [0x11]) ++
      [0xf8, 0x42, 0xa0] ++ (List.replicate 30 0 ++ [0xde, 0xad]) ++ [0xa0] ++
      (List.replicate 30 0 ++ [0xbe, 0xef]) ++ [0x83, 0x01, 0x00, 0xff] := by
  decide

/-- The repository's EIP-1559 header test vector: the full header hash
reproduced bit for bit (block_header.rs test_eip1559_block_header_hash). -/
theorem header_eip1559_vector :
    blockHeaderHash
      { parent_hash := [0xe0, 0xa9, 0x4a, 0x7a, 0x3c, 0x96, 0x17, 0x40, 0x15, 0x86, 0xb1, 0xa2, 0x70, 0x25, 0xd2, 0xd9, 0x67, 0x13, 0x32, 0xd2, 0x2d, 0x54, 0x0e, 0x0a, 0xf7, 0x2b, 0x06, 0x91, 0x70, 0x38, 0x0f, 0x2a],
        ommers_hash := [0x1d, 0xcc, 0x4d, 0xe8, 0xde, 0xc7, 0x5d, 0x7a, 0xab, 0x85, 0xb5, 0x67, 0xb6, 0xcc, 0xd4, 0x1a, 0xd3, 0x12, 0x45, 0x1b, 0x94, 0x8a, 0x74, 0x13, 0xf0, 0xa1, 0x42, 0xfd, 0x40, 0xd4, 0x93, 0x47],
        beneficiary := [0xba, 0x5e, 0x00, 0x00, 0x00, 0x00, 0x00, 0x00, 0x00, 0x00, 0x00, 0x00, 0x00, 0x00, 0x00, 0x00, 0x00, 0x00, 0x00, 0x00],
        state_root := [0xec, 0x3c, 0x94, 0xb1, 0x8b, 0x8a, 0x1c, 0xff, 0x7d, 0x60, 0xf8, 0xd2, 0x58, 0xec, 0x72, 0x33, 0x12, 0x93, 0x29, 0x28, 0x62, 0x6b, 0x4c, 0x93, 0x55, 0xeb, 0x4a, 0xb3, 0x56, 0x8e, 0xc7, 0xf7],
        transactions_root := [0x50, 0xf7, 0x38, 0x58, 0x0e, 0xd6, 0x99, 0xf0, 0x46, 0x97, 0x02, 0xc7, 0xcc, 0xc6, 0x3e, 0xd2, 0xe5, 0x1b, 0xc0, 0x34, 0xbe, 0x94, 0x79, 0xb7, 0xbf, 0xf4, 0xe6, 0x8d, 0xee, 0x84, 0xac, 0xcf],
        receipts_root := [0x29, 0xb0, 0x56, 0x2f, 0x71, 0x40, 0x57, 0x4d, 0xd0, 0xd5, 0x0d, 0xee, 0x8a, 0x27, 0x1b, 0x22, 0xe1, 0xa0, 0xa7, 0xb7, 0x8f, 0xca, 0x58, 0xf7, 0xc6, 0x03, 0x70, 0xd8, 0x31, 0x7b, 0xa2, 0xa9],
        withdrawals_root := none,
        logs_bloom := List.replicate 256 0,
        difficulty := u256FromU64 0x020000,
        number := 0x01,
        gas_limit := 0x016345785d8a0000,
        gas_used := 0x015534,
        timestamp := 0x079e,
        mix_hash := List.replicate 32 0,
        nonce := 0,
        base_fee_per_gas := some 0x036b,
        blob_gas_used := none,
        excess_blob_gas := none,
        parent_beacon_block_root := none,
        extra_data := [0x42] } = [0x6a, 0x25, 0x1c, 0x7c, 0x3c, 0x5d, 0xca, 0x7b, 0x42, 0x40, 0x7a, 0x37, 0x52, 0xff, 0x48, 0xf3, 0xbb, 0xca, 0x1f, 0xab, 0x7f, 0x98, 0x68, 0x37, 0x1d, 0x99, 0x18, 0xda, 0xf1, 0x98, 0x8d, 0x1f] := by
  decide

/-- C4 (code bug): the spec and the in-code comments say a single placeholder
byte EMPTY_STRING_CODE (0x80) resp. EMPTY_LIST_CODE (0xc0) is emitted for an
absent-but-needed optional, and header_payload_length counts it as one byte.
The encode! macro, however, routes the u8 constant through alloy's integer
Encodable, so the bytes actually emitted are [0x81, 0x80] resp. [0x81, 0xc0]
(two bytes each), making the emitted body one byte longer per placeholder
than the declared payload length. -/
theorem C4_placeholder_code_bug :
    optBaseFee headerMissingBaseFee = [0x81, 0x80] ∧
    optBaseFee headerMissingBaseFee ≠ [0x80] ∧
    (headerBodyBytes headerMissingBaseFee).length =
      header_payload_length headerMissingBaseFee + 1 ∧
    optBlobGasUsed headerMissingBlobGas = [0x81, 0xc0] ∧
    optBlobGasUsed headerMissingBlobGas ≠ [0xc0] ∧
    (headerBodyBytes headerMissingBlobGas).length =
      header_payload_length headerMissingBlobGas + 1 := by
  decide

theorem nsize_pos : ∀ n : Node, 0 < nsize n := by
  intro n
  cases n <;> simp [nsize] <;> omega

theorem nsize_getChild_lt (ch : List Node) (i : Nat) (val : Option (List Nat)) :
    nsize (getChild ch i) < nsize (Node.branch ch val) := by
  have hmem : ∀ (l : List Node) (n : Node), n ∈ l → nsize n ≤ nsizeList l := by
    intro l
    induction l with
    | nil => intro n hn; cases hn
    | cons x xs ih =>
      intro n hn
      rcases List.mem_cons.1 hn with rfl | hn
      · simp [nsizeList]
      · have := ih n hn
        simp [nsizeList]
        omega
  unfold getChild
  rcases h : ch[i]? with _ | el
  · simp only [List.getD_eq_getElem?_getD, h, Option.getD_none, nsize]
    omega
  · have hm : el ∈ ch := List.getElem?_mem h
    have := hmem ch el hm
    simp only [List.getD_eq_getElem?_getD, h, Option.getD_some, nsize]
    omega

theorem getD_set_cases (l : List Node) (i j : Nat) (w : Node) :
    (l.set i w).getD j .empty = w ∨ (l.set i w).getD j .empty = l.getD j .empty := by
  induction l generalizing i j with
  | nil => right; rfl
  | cons x xs ih =>
    cases i with
    | zero =>
      cases j with
      | zero => left; rfl
      | succ j => right; rfl
    | succ i =>
      cases j with
      | zero => right; rfl
      | succ j => simpa [List.set, List.getD] using ih i j

theorem nsize_wrapped_lt (p : List Nat) (c : Node) :
    nsize (if p.length ≤ 1 then c else Node.ext (p.drop 1) c) < nsize (Node.ext p c) := by
  have hc := nsize_pos c
  by_cases hp : p.length ≤ 1 <;> simp [nsize, hp] <;> omega

theorem getD_replicate_empty (n j : Nat) :
    (List.replicate n Node.empty).getD j Node.empty = Node.empty := by
  induction n generalizing j with
  | zero => rfl
  | succ n ih =>
    cases j with
    | zero => rfl
    | succ j => simpa [List.replicate, List.getD] using ih j

theorem getChild_emptyChildren (j : Nat) : getChild emptyChildren j = Node.empty :=
  getD_replicate_empty 16 j

theorem nsize_getChild_branchInsert_lt (p : List Nat) (c : Node) (i j : Nat) :
    nsize (getChild ((branchInsert emptyChildren none i
        (if p.length ≤ 1 then c else Node.ext (p.drop 1) c)).1) j) <
      nsize (Node.ext p c) := by
  have hw := nsize_wrapped_lt p c
  have hc := nsize_pos c
  by_cases hi : i = 16
  · simp only [branchInsert, hi, reduceIte]
    have he : getChild emptyChildren j = Node.empty := getChild_emptyChildren j
    rw [he]
    simp only [nsize]
    omega
  · simp only [branchInsert, if_neg hi]
    show nsize ((emptyChildren.set i _).getD j Node.empty) < _
    rcases getD_set_cases emptyChildren i j (if p.length ≤ 1 then c else Node.ext (p.drop 1) c)
      with h | h
    · rw [h]
      exact hw
    · rw [h]
      have he : (emptyChildren.getD j Node.empty) = Node.empty := getChild_emptyChildren j
      rw [he]
      simp only [nsize]
      omega

/-! ### Basic facts about nibble paths -/
theorem commonPrefixLen_le_left (a b : List Nat) : commonPrefixLen a b ≤ a.length := by
  induction a generalizing b with
  | nil => cases b <;> simp [commonPrefixLen]
  | cons x xs ih =>
    cases b with
    | nil => simp [commonPrefixLen]
    | cons y ys =>
      by_cases h : x = y <;> simp [commonPrefixLen, h]
      exact ih ys

theorem commonPrefixLen_le_right (a b : List Nat) : commonPrefixLen a b ≤ b.length := by
  induction a generalizing b with
  | nil => cases b <;> simp [commonPrefixLen]
  | cons x xs ih =>
    cases b with
    | nil => simp [commonPrefixLen]
    | cons y ys =>
      by_cases h : x = y <;> simp [commonPrefixLen, h]
      exact ih ys

theorem commonPrefixLen_comm (a b : List Nat) : commonPrefixLen a b = commonPrefixLen b a := by
  induction a generalizing b with
  | nil => cases b <;> simp [commonPrefixLen]
  | cons x xs ih =>
    cases b with
    | nil => simp [commonPrefixLen]
    | cons y ys =>
      by_cases h : x = y
      · simp [commonPrefixLen, h, ih ys]
      · have h' : ¬y = x := fun hh => h hh.symm
        simp [commonPrefixLen, h, h']

/-- Up to the common-prefix length, the two paths agree. -/
theorem commonPrefixLen_take (a b : List Nat) :
    a.take (commonPrefixLen a b) = b.take (commonPrefixLen a b) := by
  induction a generalizing b with
  | nil => cases b <;> simp [commonPrefixLen]
  | cons x xs ih =>
    cases b with
    | nil => simp [commonPrefixLen]
    | cons y ys =>
      by_cases h : x = y <;> simp [commonPrefixLen, h]
      exact ih ys

/-- At the common-prefix length, the paths disagree (when both still have an
element there). -/
theorem commonPrefixLen_mismatch (a b : List Nat)
    (ha : commonPrefixLen a b < a.length) (hb : commonPrefixLen a b < b.length) :
    a.getD (commonPrefixLen a b) 0 ≠ b.getD (commonPrefixLen a b) 0 := by
  induction a generalizing b with
  | nil => simp at ha
  | cons x xs ih =>
    cases b with
    | nil => simp at hb
    | cons y ys =>
      by_cases h : x = y
      · simp only [commonPrefixLen, if_pos h, List.getD_cons_succ]
        exact ih ys (by simpa [commonPrefixLen, h] using ha)
          (by simpa [commonPrefixLen, h] using hb)
      · simpa [commonPrefixLen, h] using h

/-- When one path is fully matched, it is a take of the other. -/
theorem commonPrefixLen_full_right (a b : List Nat)
    (h : commonPrefixLen a b = b.length) : a.take b.length = b := by
  have := commonPrefixLen_take a b
  rw [h, List.take_length] at this
  exact this

theorem commonPrefixLen_refl_append (b rest : List Nat) :
    commonPrefixLen (b ++ rest) b = b.length := by
  induction b with
  | nil => simp [commonPrefixLen]
  | cons x xs ih => simp [commonPrefixLen, ih]

/-- A valid (terminated) path: some sentinel-free digits then the 0x10. -/
theorem isValidPath_iff (nk : List Nat) :
    isValidPath nk = true ↔
      ∃ rem, nk = rem ++ [16] ∧ ∀ x ∈ rem, x < 16 := by
  constructor
  · intro h
    unfold isValidPath at h
    simp only [Bool.and_eq_true, List.all_eq_true, beq_iff_eq] at h
    obtain ⟨h1, h2⟩ := h
    rcases List.eq_nil_or_concat nk with rfl | ⟨rem, x, rfl⟩
    · simp at h2
    · simp only [List.concat_eq_append] at h1 h2 ⊢
      refine ⟨rem, ?_, ?_⟩
      · rw [List.getLast?_concat] at h2
        simp at h2
        simp [h2]
      · intro y hy
        have hmem : y ∈ (rem ++ [x]).dropLast := by
          rw [List.dropLast_concat]
          exact hy
        exact by simpa using h1 y hmem
  · rintro ⟨rem, rfl, hrem⟩
    unfold isValidPath
    simp only [Bool.and_eq_true, List.all_eq_true, beq_iff_eq]
    constructor
    · intro x hx
      rw [List.dropLast_concat] at hx
      simpa using hrem x hx
    · rw [List.getLast?_concat]

theorem isValidPath_from_raw (k : List Nat) (hk : ∀ b ∈ k, b < 256) :
    isValidPath (from_raw k true) = true := by
  rw [isValidPath_iff]
  refine ⟨(k.map fun b => [b / 16, b % 16]).flatten, by simp [from_raw], ?_⟩
  intro x hx
  simp only [List.mem_flatten, List.mem_map] at hx
  obtain ⟨l, ⟨b, hb, rfl⟩, hxl⟩ := hx
  have hb256 := hk b hb
  simp at hxl
  rcases hxl with rfl | rfl
  · omega
  · omega

/-- Valid paths have the sentinel only at the very end, so a valid path with
head 16 is exactly [16]. -/
theorem valid_head_sixteen {nk : List Nat} (hv : isValidPath nk = true)
    (h : nibAt nk 0 = 16) : nk = [16] := by
  rw [isValidPath_iff] at hv
  obtain ⟨rem, rfl, hrem⟩ := hv
  cases rem with
  | nil => rfl
  | cons x xs =>
    exfalso
    have : x < 16 := hrem x (by simp)
    simp [nibAt] at h
    omega

/-- A valid path whose head is not 16 decomposes as head :: valid tail. -/
theorem valid_cons {nk : List Nat} (hv : isValidPath nk = true)
    (h : nibAt nk 0 ≠ 16) :
    ∃ i rest, nk = i :: rest ∧ i < 16 ∧ isValidPath rest = true := by
  rw [isValidPath_iff] at hv
  obtain ⟨rem, rfl, hrem⟩ := hv
  cases rem with
  | nil => simp [nibAt] at h
  | cons x xs =>
    refine ⟨x, xs ++ [16], by simp, hrem x (by simp), ?_⟩
    rw [isValidPath_iff]
    exact ⟨xs, rfl, fun y hy => hrem y (by simp [hy])⟩

theorem valid_drop {nk : List Nat} (hv : isValidPath nk = true) (m : Nat)
    (hm : m < nk.length) : isValidPath (nk.drop m) = true := by
  rw [isValidPath_iff] at hv ⊢
  obtain ⟨rem, rfl, hrem⟩ := hv
  have hm' : m ≤ rem.length := by
    simp at hm
    omega
  refine ⟨rem.drop m, by rw [List.drop_append_of_le_length hm'], ?_⟩
  intro x hx
  exact hrem x (List.mem_of_mem_drop hx)

/-- Valid paths contain the sentinel only at the end, so a sentinel-free
prefix that is fully matched is strictly shorter than the path. -/
theorem valid_prefix_lt {nk p : List Nat} (hv : isValidPath nk = true)
    (hp : ∀ x ∈ p, x < 16) (hm : commonPrefixLen nk p = p.length) :
    p.length < nk.length := by
  rcases Nat.lt_or_ge p.length nk.length with h | h
  · exact h
  · exfalso
    rw [isValidPath_iff] at hv
    obtain ⟨rem, rfl, hrem⟩ := hv
    have hle := commonPrefixLen_le_left (rem ++ [16]) p
    rw [hm] at hle
    have hlen : p.length = rem.length + 1 := by
      simp at h hle ⊢
      omega
    have htake := commonPrefixLen_full_right (rem ++ [16]) p hm
    have : p = rem ++ [16] := by
      rw [← htake, hlen]
      simp
    have h16 : (16 : Nat) ∈ p := by
      rw [this]
      simp
    have := hp 16 h16
    omega

/-! ### Fuel adequacy and equation lemmas for the trie operations -/
theorem nsize_ext_drop_lt (p : List Nat) (c : Node) (m : Nat) (hm : m ≠ 0)
    (hmp : m ≤ p.length) :
    nsize (Node.ext (p.drop m) c) < nsize (Node.ext p c) := by
  simp only [nsize, List.length_drop]
  omega

theorem insertAtF_congr (f : Nat) :
    ∀ (f' : Nat) (n : Node) (pk v : List Nat), nsize n ≤ f → nsize n ≤ f' →
      insertAtF f n pk v = insertAtF f' n pk v := by
  induction f with
  | zero =>
    intro f' n pk v hf hf'
    have := nsize_pos n
    omega
  | succ f ih =>
    intro f' n pk v hf hf'
    cases f' with
    | zero =>
      have := nsize_pos n
      omega
    | succ f' =>
      cases n with
      | empty => rfl
      | leaf k' v' => rfl
      | branch ch val =>
        simp only [insertAtF]
        by_cases h : nibAt pk 0 = 16
        · simp [h]
        · simp only [if_neg h]
          have hlt := nsize_getChild_lt ch (nibAt pk 0) val
          simp only [nsize] at hlt hf hf'
          rw [ih f' (getChild ch (nibAt pk 0)) (pk.drop 1) v (by omega) (by omega)]
      | ext p c =>
        simp only [insertAtF]
        have hexts : nsize (Node.ext p c) = 1 + p.length + nsize c := rfl
        by_cases hm : commonPrefixLen pk p = 0
        · simp only [if_pos hm]
          by_cases h16 : nibAt pk 0 = 16
          · simp [h16]
          · simp only [if_neg h16]
            have hlt := nsize_getChild_branchInsert_lt p c (nibAt p 0) (nibAt pk 0)
            rw [hexts] at hf hf'
            rw [ih f' _ (pk.drop 1) v (by omega) (by omega)]
        · simp only [if_neg hm]
          by_cases hm2 : commonPrefixLen pk p = p.length
          · simp only [if_pos hm2]
            have hc := nsize_pos c
            rw [hexts] at hf hf'
            rw [ih f' c (pk.drop (commonPrefixLen pk p)) v (by omega) (by omega)]
          · simp only [if_neg hm2]
            have hmp : commonPrefixLen pk p ≤ p.length := commonPrefixLen_le_right pk p
            have hlt := nsize_ext_drop_lt p c (commonPrefixLen pk p) hm hmp
            rw [hexts] at hf hf'
            simp only [nsize, List.length_drop] at hlt
            rw [ih f' (Node.ext (p.drop (commonPrefixLen pk p)) c)
                (pk.drop (commonPrefixLen pk p)) v (by simp [nsize]; omega)
                (by simp [nsize]; omega)]

theorem insertAt_empty (pk v : List Nat) : insertAt .empty pk v = .leaf pk v := rfl

theorem insertAt_leaf (k' v' pk v : List Nat) :
    insertAt (.leaf k' v') pk v =
      (let m := commonPrefixLen pk k'
       if m = k'.length then .leaf k' v
       else
         let p1 := branchInsert emptyChildren none (nibAt k' m) (.leaf (k'.drop (m + 1)) v')
         let p2 := branchInsert p1.1 p1.2 (nibAt pk m) (.leaf (pk.drop (m + 1)) v)
         if m = 0 then .branch p2.1 p2.2
         else .ext (pk.take m) (.branch p2.1 p2.2)) := rfl

theorem insertAt_branch (ch : List Node) (val : Option (List Nat)) (pk v : List Nat) :
    insertAt (.branch ch val) pk v =
      if nibAt pk 0 = 16 then .branch ch (some v)
      else
        .branch (setChild ch (nibAt pk 0)
          (insertAt (getChild ch (nibAt pk 0)) (pk.drop 1) v)) val := by
  show insertAtF (nsize (.branch ch val)) _ _ _ = _
  have h1 : nsize (Node.branch ch val) = (1 + nsizeList ch) + 1 := by
    simp only [nsize]
    omega
  rw [h1]
  simp only [insertAtF]
  by_cases h : nibAt pk 0 = 16
  · simp [h]
  · simp only [if_neg h]
    have hlt := nsize_getChild_lt ch (nibAt pk 0) val
    simp only [nsize] at hlt
    rw [insertAtF_congr (1 + nsizeList ch) (nsize (getChild ch (nibAt pk 0)))
      (getChild ch (nibAt pk 0)) (pk.drop 1) v (by omega) le_rfl]
    rfl

theorem insertAt_ext (p : List Nat) (c : Node) (pk v : List Nat) :
    insertAt (.ext p c) pk v =
      (let m := commonPrefixLen pk p
       if m = 0 then
         let wrapped := if p.length ≤ 1 then c else .ext (p.drop 1) c
         let pr := branchInsert emptyChildren none (nibAt p 0) wrapped
         if nibAt pk 0 = 16 then .branch pr.1 (some v)
         else
           .branch (setChild pr.1 (nibAt pk 0)
             (insertAt (getChild pr.1 (nibAt pk 0)) (pk.drop 1) v)) pr.2
       else if m = p.length then .ext p (insertAt c (pk.drop m) v)
       else .ext (p.take m) (insertAt (.ext (p.drop m) c) (pk.drop m) v)) := by
  show insertAtF (nsize (.ext p c)) _ _ _ = _
  have h1 : nsize (Node.ext p c) = (p.length + nsize c) + 1 := by
    simp only [nsize]
    omega
  rw [h1]
  simp only [insertAtF]
  by_cases hm : commonPrefixLen pk p = 0
  · simp only [if_pos hm]
    by_cases h16 : nibAt pk 0 = 16
    · simp [h16]
    · simp only [if_neg h16]
      have hlt := nsize_getChild_branchInsert_lt p c (nibAt p 0) (nibAt pk 0)
      simp only [nsize] at hlt
      rw [insertAtF_congr (p.length + nsize c) (nsize (getChild
        ((branchInsert emptyChildren none (nibAt p 0)
          (if p.length ≤ 1 then c else Node.ext (p.drop 1) c)).1) (nibAt pk 0)))
        _ (pk.drop 1) v (by omega) le_rfl]
      rfl
  · simp only [if_neg hm]
    by_cases hm2 : commonPrefixLen pk p = p.length
    · simp only [if_pos hm2]
      have hc := nsize_pos c
      rw [insertAtF_congr (p.length + nsize c) (nsize c) c
        (pk.drop (commonPrefixLen pk p)) v (by omega) le_rfl]
      rfl
    · simp only [if_neg hm2]
      have hmp : commonPrefixLen pk p ≤ p.length := commonPrefixLen_le_right pk p
      rw [insertAtF_congr (p.length + nsize c)
        (nsize (Node.ext (p.drop (commonPrefixLen pk p)) c))
        (Node.ext (p.drop (commonPrefixLen pk p)) c)
        (pk.drop (commonPrefixLen pk p)) v
        (by simp only [nsize, List.length_drop]; omega) le_rfl]
      rfl

theorem walkProofF_congr (f : Nat) :
    ∀ (f' : Nat) (n : Node) (key : List Nat), nsize n ≤ f → nsize n ≤ f' →
      walkProofF f n key = walkProofF f' n key := by
  induction f with
  | zero =>
    intro f' n key hf _
    have := nsize_pos n
    omega
  | succ f ih =>
    intro f' n key hf hf'
    cases f' with
    | zero =>
      have := nsize_pos n
      omega
    | succ f' =>
      cases n with
      | empty => rfl
      | leaf k v => rfl
      | ext p c =>
        simp only [walkProofF]
        have hc := nsize_pos c
        have hs : nsize (Node.ext p c) = 1 + p.length + nsize c := rfl
        rw [ih f' c (key.drop (commonPrefixLen key p)) (by omega) (by omega)]
      | branch ch val =>
        simp only [walkProofF]
        by_cases h : nibAt key 0 = 16
        · simp [h]
        · simp only [if_neg h]
          have hlt := nsize_getChild_lt ch (nibAt key 0) val
          simp only [nsize] at hlt hf hf'
          rw [ih f' (getChild ch (nibAt key 0)) (key.drop 1) (by omega) (by omega)]

theorem walkProof_empty (key : List Nat) : walkProof .empty key = some [] := rfl

theorem walkProof_leaf (k v key : List Nat) : walkProof (.leaf k v) key = some [] := rfl

theorem walkProof_ext (p : List Nat) (c : Node) (key : List Nat) :
    walkProof (.ext p c) key =
      (walkProof c (key.drop (commonPrefixLen key p))).map fun fs =>
        .extensionNode p :: fs := by
  show walkProofF (nsize (.ext p c)) _ _ = _
  have h1 : nsize (Node.ext p c) = (p.length + nsize c) + 1 := by
    simp only [nsize]
    omega
  rw [h1]
  simp only [walkProofF]
  rw [walkProofF_congr (p.length + nsize c) (nsize c) c
    (key.drop (commonPrefixLen key p)) (by have := nsize_pos c; omega) le_rfl]
  rfl

theorem walkProof_branch (ch : List Node) (val : Option (List Nat)) (key : List Nat) :
    walkProof (.branch ch val) key =
      (if nibAt key 0 = 16 then none
       else
         (walkProof (getChild ch (nibAt key 0)) (key.drop 1)).map fun fs =>
           .branchNode ((List.range 16).map fun j =>
             if j = nibAt key 0 then none
             else
               let e := encodeNode (getChild ch j)
               if e.length = 1 then none else some (pad32 e)) (nibAt key 0) val :: fs) := by
  show walkProofF (nsize (.branch ch val)) _ _ = _
  have h1 : nsize (Node.branch ch val) = (1 + nsizeList ch) + 1 := by
    simp only [nsize]
    omega
  rw [h1]
  simp only [walkProofF]
  by_cases h : nibAt key 0 = 16
  · simp [h]
  · simp only [if_neg h]
    have hlt := nsize_getChild_lt ch (nibAt key 0) val
    simp only [nsize] at hlt
    rw [walkProofF_congr (1 + nsizeList ch) (nsize (getChild ch (nibAt key 0)))
      (getChild ch (nibAt key 0)) (key.drop 1) (by omega) le_rfl]
    rfl

theorem lookupLeafF_congr (f : Nat) :
    ∀ (f' : Nat) (n : Node) (nk : List Nat), nsize n ≤ f → nsize n ≤ f' →
      lookupLeafF f n nk = lookupLeafF f' n nk := by
  induction f with
  | zero =>
    intro f' n nk hf _
    have := nsize_pos n
    omega
  | succ f ih =>
    intro f' n nk hf hf'
    cases f' with
    | zero =>
      have := nsize_pos n
      omega
    | succ f' =>
      cases n with
      | empty => rfl
      | leaf k v => rfl
      | ext p c =>
        simp only [lookupLeafF]
        have hc := nsize_pos c
        have hs : nsize (Node.ext p c) = 1 + p.length + nsize c := rfl
        rw [ih f' c (nk.drop p.length) (by omega) (by omega)]
      | branch ch val =>
        simp only [lookupLeafF]
        by_cases h : nibAt nk 0 = 16
        · simp [h]
        · simp only [if_neg h]
          have hlt := nsize_getChild_lt ch (nibAt nk 0) val
          simp only [nsize] at hlt hf hf'
          rw [ih f' (getChild ch (nibAt nk 0)) (nk.drop 1) (by omega) (by omega)]

theorem lookupLeaf_empty (nk : List Nat) : lookupLeaf .empty nk = none := rfl

theorem lookupLeaf_leaf (k v nk : List Nat) :
    lookupLeaf (.leaf k v) nk = if nk = k then some v else none := rfl

theorem lookupLeaf_ext (p : List Nat) (c : Node) (nk : List Nat) :
    lookupLeaf (.ext p c) nk =
      if commonPrefixLen nk p = p.length then lookupLeaf c (nk.drop p.length) else none := by
  show lookupLeafF (nsize (.ext p c)) _ _ = _
  have h1 : nsize (Node.ext p c) = (p.length + nsize c) + 1 := by
    simp only [nsize]
    omega
  rw [h1]
  simp only [lookupLeafF]
  rw [lookupLeafF_congr (p.length + nsize c) (nsize c) c (nk.drop p.length)
    (by have := nsize_pos c; omega) le_rfl]
  rfl

theorem lookupLeaf_branch (ch : List Node) (val : Option (List Nat)) (nk : List Nat) :
    lookupLeaf (.branch ch val) nk =
      if nibAt nk 0 = 16 then none
      else lookupLeaf (getChild ch (nibAt nk 0)) (nk.drop 1) := by
  show lookupLeafF (nsize (.branch ch val)) _ _ = _
  have h1 : nsize (Node.branch ch val) = (1 + nsizeList ch) + 1 := by
    simp only [nsize]
    omega
  rw [h1]
  simp only [lookupLeafF]
  by_cases h : nibAt nk 0 = 16
  · simp [h]
  · simp only [if_neg h]
    have hlt := nsize_getChild_lt ch (nibAt nk 0) val
    simp only [nsize] at hlt
    rw [lookupLeafF_congr (1 + nsizeList ch) (nsize (getChild ch (nibAt nk 0)))
      (getChild ch (nibAt nk 0)) (nk.drop 1) (by omega) le_rfl]
    rfl

theorem toMapF_congr (f : Nat) :
    ∀ (f' : Nat) (n : Node) (nk : List Nat), nsize n ≤ f → nsize n ≤ f' →
      toMapF f n nk = toMapF f' n nk := by
  induction f with
  | zero =>
    intro f' n nk hf _
    have := nsize_pos n
    omega
  | succ f ih =>
    intro f' n nk hf hf'
    cases f' with
    | zero =>
      have := nsize_pos n
      omega
    | succ f' =>
      cases n with
      | empty => rfl
      | leaf k v => rfl
      | ext p c =>
        simp only [toMapF]
        have hc := nsize_pos c
        have hs : nsize (Node.ext p c) = 1 + p.length + nsize c := rfl
        rw [ih f' c (nk.drop p.length) (by omega) (by omega)]
      | branch ch val =>
        simp only [toMapF]
        by_cases h : nibAt nk 0 = 16
        · simp [h]
        · simp only [if_neg h]
          have hlt := nsize_getChild_lt ch (nibAt nk 0) val
          simp only [nsize] at hlt hf hf'
          rw [ih f' (getChild ch (nibAt nk 0)) (nk.drop 1) (by omega) (by omega)]

theorem toMap_empty (nk : List Nat) : toMap .empty nk = none := rfl

theorem toMap_leaf (k v nk : List Nat) :
    toMap (.leaf k v) nk = if nk = k then some v else none := rfl

theorem toMap_ext (p : List Nat) (c : Node) (nk : List Nat) :
    toMap (.ext p c) nk =
      if commonPrefixLen nk p = p.length then toMap c (nk.drop p.length) else none := by
  show toMapF (nsize (.ext p c)) _ _ = _
  have h1 : nsize (Node.ext p c) = (p.length + nsize c) + 1 := by
    simp only [nsize]
    omega
  rw [h1]
  simp only [toMapF]
  rw [toMapF_congr (p.length + nsize c) (nsize c) c (nk.drop p.length)
    (by have := nsize_pos c; omega) le_rfl]
  rfl

theorem toMap_branch (ch : List Node) (val : Option (List Nat)) (nk : List Nat) :
    toMap (.branch ch val) nk =
      if nibAt nk 0 = 16 then val
      else toMap (getChild ch (nibAt nk 0)) (nk.drop 1) := by
  show toMapF (nsize (.branch ch val)) _ _ = _
  have h1 : nsize (Node.branch ch val) = (1 + nsizeList ch) + 1 := by
    simp only [nsize]
    omega
  rw [h1]
  simp only [toMapF]
  by_cases h : nibAt nk 0 = 16
  · simp [h]
  · simp only [if_neg h]
    have hlt := nsize_getChild_lt ch (nibAt nk 0) val
    simp only [nsize] at hlt
    rw [toMapF_congr (1 + nsizeList ch) (nsize (getChild ch (nibAt nk 0)))
      (getChild ch (nibAt nk 0)) (nk.drop 1) (by omega) le_rfl]
    rfl

/-! ### Encoding length facts -/
theorem headerBytes_length_pos (b : Bool) (n : Nat) : 1 ≤ (headerBytes b n).length := by
  unfold headerBytes
  split <;> simp

theorem rlpString_length_pos (s : List Nat) : 1 ≤ (rlpString s).length := by
  unfold rlpString
  split
  · omega
  · have := headerBytes_length_pos false s.length
    simp
    omega

theorem rlpList_length_ge (items : List (List Nat)) :
    1 + (items.map List.length).sum ≤ (rlpList items).length := by
  unfold rlpList
  have h1 := headerBytes_length_pos true (items.map List.length).sum
  simp [List.length_flatten]
  omega

theorem rlp_node_length_ge2 (raw : List Nat) (h : 2 ≤ raw.length) :
    2 ≤ (rlp_node raw).length := by
  unfold rlp_node
  split
  · exact h
  · rw [keccak256_length]
    omega

theorem leafRaw_length_ge2 (ck v : List Nat) : 2 ≤ (leafRaw ck v).length := by
  unfold leafRaw
  have := rlpList_length_ge [rlpString ck, rlpString v]
  have h1 := rlpString_length_pos ck
  have h2 := rlpString_length_pos v
  simp at this
  omega

theorem extRaw_length_ge2 (p ptr : List Nat) : 2 ≤ (extRaw p ptr).length := by
  unfold extRaw
  have := rlpList_length_ge [rlpString (encode_path_leaf p false), rlpString ptr]
  have h1 := rlpString_length_pos (encode_path_leaf p false)
  have h2 := rlpString_length_pos ptr
  simp at this
  omega

theorem branchRaw_length_ge2 (entries : List (Option (List Nat)))
    (val : Option (List Nat)) (he : 1 ≤ entries.length) :
    2 ≤ (branchRaw entries val).length := by
  unfold branchRaw
  have h1 := headerBytes_length_pos true
    (1 + (entries.map fun e => match e with
      | some h => (rlpString h).length
      | none => 1).sum)
  have h2 : ∀ es : List (Option (List Nat)),
      es.length ≤ ((es.map fun e => match e with
        | some h => rlpString h
        | none => [0x80]).flatten).length := by
    intro es
    induction es with
    | nil => simp
    | cons e rest ih =>
      simp only [List.map_cons, List.flatten_cons, List.length_append, List.length_cons]
      have : 1 ≤ (match e with
          | some h => rlpString h
          | none => ([0x80] : List Nat)).length := by
        cases e with
        | none => simp
        | some h => exact rlpString_length_pos h
      omega
  have h2e := h2 entries
  rcases val with _ | v <;>
    simp only [List.length_append, List.length_cons, List.length_nil] <;> omega

/-- encodeChildren has one entry per child. -/
theorem encodeChildren_length (ch : List Node) :
    (encodeChildren ch).length = ch.length := by
  induction ch with
  | nil => rfl
  | cons c rest ih =>
    show (_ :: encodeChildren rest).length = _
    simp [ih]

/-- Only the empty node encodes to a single byte (for well-formed nodes). -/
theorem encodeNode_length_ge2 (t : Node) (h : t ≠ .empty) (hwf : wfB t = true) :
    2 ≤ (encodeNode t).length := by
  cases t with
  | empty => exact absurd rfl h
  | leaf k v => exact rlp_node_length_ge2 _ (leafRaw_length_ge2 _ _)
  | ext p c => exact rlp_node_length_ge2 _ (extRaw_length_ge2 _ _)
  | branch ch val =>
    have hlen : ch.length = 16 := by
      unfold wfB at hwf
      simp only [Bool.and_eq_true, beq_iff_eq] at hwf
      exact hwf.1.1
    refine rlp_node_length_ge2 _ (branchRaw_length_ge2 _ _ ?_)
    rw [encodeChildren_length, hlen]
    omega

/-- encodeChildren as an indexed map over the 16 slots. -/
theorem encodeChildren_eq_map (ch : List Node) :
    encodeChildren ch = (List.range ch.length).map fun j =>
      let e := encodeNode (getChild ch j)
      if e.length = 1 then none else some (pad32 e) := by
  induction ch with
  | nil => rfl
  | cons c rest ih =>
    show _ :: encodeChildren rest = _
    rw [ih]
    simp only [List.length_cons, List.range_succ_eq_map, List.map_cons, List.map_map]
    rfl

theorem wfB_getChild (ch : List Node) (i : Nat) (h : wfListB ch = true) :
    wfB (getChild ch i) = true := by
  induction ch generalizing i with
  | nil =>
    show wfB (List.getD [] i .empty) = true
    simp [List.getD, wfB]
  | cons c rest ih =>
    have hc : wfB c = true ∧ wfListB rest = true := by
      have := h
      unfold wfListB at this
      simpa using this
    cases i with
    | zero => exact hc.1
    | succ i => exact ih i hc.2

theorem land_fifteen {i : Nat} (h : i < 16) : i &&& 15 = i := by
  interval_cases i <;> decide

theorem dropLast_drop (l : List Nat) (m : Nat) (hm : m < l.length) :
    l.dropLast.drop m = (l.drop m).dropLast := by
  rw [List.dropLast_eq_take, List.dropLast_eq_take, List.drop_take,
    List.length_drop]
  congr 1
  omega

theorem from_raw_false_dropLast (k : List Nat) :
    from_raw k false = (from_raw k true).dropLast := by
  unfold from_raw
  simp

theorem isValidPath_getLast {nk : List Nat} (h : isValidPath nk = true) :
    nk.getLast? = some 16 := by
  unfold isValidPath at h
  simp only [Bool.and_eq_true, beq_iff_eq] at h
  exact h.2

theorem isValidPath_length_pos {nk : List Nat} (h : isValidPath nk = true) :
    1 ≤ nk.length := by
  rw [isValidPath_iff] at h
  obtain ⟨rem, rfl, _⟩ := h
  simp

theorem map_range_set {α : Type} (n i : Nat) (f g : Nat → α) (hi : i < n)
    (hfg : ∀ j, j ≠ i → f j = g j) :
    ((List.range n).map f).set i (g i) = (List.range n).map g := by
  apply List.ext_getElem
  · simp
  · intro j h1 h2
    simp only [List.getElem_set, List.getElem_map, List.getElem_range]
    by_cases hj : i = j
    · subst hj
      simp
    · rw [if_neg hj]
      exact hfg j fun hji => hj hji.symm

/-- The round-trip invariant: walking a well-formed trie along a path that
terminates in a leaf and folding the recorded frames back over the leaf
reproduces the padded node encoding. -/
theorem roundTripAux :
    ∀ (N : Nat) (t : Node) (nk v : List Nat) (fs : List MerkleProofNode),
      nsize t ≤ N → wfB t = true → isValidPath nk = true →
      lookupLeaf t nk = some v → walkProof t nk = some fs →
      fs.foldr foldStep
        (pad32 (rlp_node (leafRaw
          (encode_path_leaf (stripFrames fs nk.dropLast) true) v))) =
        pad32 (encodeNode t) := by
  intro N
  induction N with
  | zero =>
    intro t nk v fs hN
    have := nsize_pos t
    omega
  | succ N ih =>
    intro t nk v fs hN hwf hval hl hw
    cases t with
    | empty =>
      rw [lookupLeaf_empty] at hl
      cases hl
    | leaf k v' =>
      rw [lookupLeaf_leaf] at hl
      rw [walkProof_leaf] at hw
      have hfs : fs = [] := by
        injection hw with h
        exact h.symm
      subst hfs
      by_cases hk : nk = k
      · subst hk
        rw [if_pos rfl] at hl
        have hcompact : encode_compact nk = encode_path_leaf nk.dropLast true := by
          simp [encode_compact, isValidPath_getLast hval]
        simp only [List.foldr_nil, stripFrames, List.foldl_nil, encodeNode]
        rw [hcompact]
        injection hl with h
        rw [h]
      · rw [if_neg hk] at hl
        cases hl
    | ext p c =>
      have hwf' := hwf
      unfold wfB at hwf'
      simp only [Bool.and_eq_true, Bool.not_eq_eq_eq_not, Bool.not_false,
        List.all_eq_true, decide_eq_true_eq] at hwf'
      obtain ⟨⟨⟨hne, hall⟩, hbr⟩, hwfc⟩ := hwf'
      rw [lookupLeaf_ext] at hl
      rw [walkProof_ext] at hw
      by_cases hcp : commonPrefixLen nk p = p.length
      · rw [if_pos hcp] at hl
        rcases Option.map_eq_some'.mp hw with ⟨fs', hw', rfl⟩
        rw [hcp] at hw'
        have hlt : p.length < nk.length :=
          valid_prefix_lt hval hall hcp
        have hval' : isValidPath (nk.drop p.length) = true :=
          valid_drop hval p.length hlt
        have hNc : nsize c ≤ N := by
          have : nsize (Node.ext p c) = 1 + p.length + nsize c := rfl
          omega
        have IH := ih c (nk.drop p.length) v fs' hNc hwfc hval' hl hw'
        simp only [List.foldr_cons, stripFrames, List.foldl_cons]
        show pad32 (rlp_node (extRaw p (List.foldr foldStep _ fs'))) = _
        rw [show (nk.dropLast.drop p.length) = (nk.drop p.length).dropLast from
          dropLast_drop nk p.length hlt]
        show pad32 (rlp_node (extRaw p (List.foldr foldStep
          (pad32 (rlp_node (leafRaw (encode_path_leaf
            (stripFrames fs' (nk.drop p.length).dropLast) true) v))) fs'))) = _
        rw [IH]
        rfl
      · rw [if_neg hcp] at hl
        cases hl
    | branch ch val =>
      have hwf' := hwf
      unfold wfB at hwf'
      simp only [Bool.and_eq_true, beq_iff_eq] at hwf'
      obtain ⟨⟨hlen, hwfl⟩, hocc⟩ := hwf'
      rw [lookupLeaf_branch] at hl
      rw [walkProof_branch] at hw
      by_cases h16 : nibAt nk 0 = 16
      · rw [if_pos h16] at hl
        cases hl
      · rw [if_neg h16] at hl
        rw [if_neg h16] at hw
        rcases Option.map_eq_some'.mp hw with ⟨fs', hw', rfl⟩
        obtain ⟨i0, rest, hnk, hi0, hrest⟩ := valid_cons hval h16
        have hidx : nibAt nk 0 = i0 := by
          rw [hnk]
          rfl
        have hdrop : nk.drop 1 = rest := by
          rw [hnk]
          rfl
        have hNc : nsize (getChild ch (nibAt nk 0)) ≤ N := by
          have h1 := nsize_getChild_lt ch (nibAt nk 0) val
          simp only [nsize] at h1 hN
          omega
        have hwfc := wfB_getChild ch (nibAt nk 0) hwfl
        have IH := ih (getChild ch (nibAt nk 0)) (nk.drop 1) v fs' hNc hwfc
          (by rw [hdrop]; exact hrest) hl hw'
        have hlen2 : 1 < nk.length := by
          rw [hnk]
          have := isValidPath_length_pos hrest
          simp
          omega
        have hchild_ne : getChild ch (nibAt nk 0) ≠ .empty := by
          intro hcontra
          rw [hcontra, lookupLeaf_empty] at hl
          cases hl
        have hclen : (encodeNode (getChild ch (nibAt nk 0))).length ≠ 1 := by
          have := encodeNode_length_ge2 _ hchild_ne hwfc
          omega
        simp only [List.foldr_cons, stripFrames, List.foldl_cons]
        show pad32 (rlp_node (branchRaw
          ((((List.range 16).map _).set (nibAt nk 0 &&& 15)
            (some (List.foldr foldStep _ fs')))) val)) = _
        rw [show (nk.dropLast.drop 1) = (nk.drop 1).dropLast from
          dropLast_drop nk 1 hlen2]
        rw [show nibAt nk 0 &&& 15 = nibAt nk 0 from by
          rw [hidx]; exact land_fifteen hi0]
        show pad32 (rlp_node (branchRaw
          (((List.range 16).map fun j =>
            if j = nibAt nk 0 then none
            else
              let e := encodeNode (getChild ch j)
              if e.length = 1 then none else some (pad32 e)).set (nibAt nk 0)
            (some (List.foldr foldStep
              (pad32 (rlp_node (leafRaw (encode_path_leaf
                (stripFrames fs' (nk.drop 1).dropLast) true) v))) fs'))) val)) = _
        rw [IH]
        have hset : ((List.range 16).map fun j =>
            if j = nibAt nk 0 then none
            else
              let e := encodeNode (getChild ch j)
              if e.length = 1 then none else some (pad32 e)).set (nibAt nk 0)
            (some (pad32 (encodeNode (getChild ch (nibAt nk 0))))) =
            (List.range 16).map fun j =>
              let e := encodeNode (getChild ch j)
              if e.length = 1 then none else some (pad32 e) := by
          have hg : (fun j =>
              let e := encodeNode (getChild ch j)
              if e.length = 1 then none else some (pad32 e)) (nibAt nk 0) =
              some (pad32 (encodeNode (getChild ch (nibAt nk 0)))) := by
            simp only [if_neg hclen]
          rw [← hg]
          refine map_range_set 16 (nibAt nk 0)
            (fun j =>
              if j = nibAt nk 0 then none
              else
                let e := encodeNode (getChild ch j)
                if e.length = 1 then none else some (pad32 e))
            (fun j =>
              let e := encodeNode (getChild ch j)
              if e.length = 1 then none else some (pad32 e)) ?_ ?_
          · rw [hidx]
            omega
          · intro j hj
            simp only [if_neg hj]
        rw [hset]
        show _ = pad32 (rlp_node (branchRaw (encodeChildren ch) val))
        rw [encodeChildren_eq_map, hlen]

/-! ### Helpers for the insertion invariants -/
theorem setChild_length (ch : List Node) (i : Nat) (n : Node) :
    (setChild ch i n).length = ch.length := by
  simp [setChild]

theorem getChild_set_self (ch : List Node) (i : Nat) (n : Node) (hi : i < ch.length) :
    getChild (setChild ch i n) i = n := by
  unfold getChild setChild
  rw [List.getD_eq_getElem?_getD, List.getElem?_set_self (by omega)]
  rfl

theorem getChild_set_ne (ch : List Node) (i j : Nat) (n : Node) (hij : i ≠ j) :
    getChild (setChild ch i n) j = getChild ch j := by
  unfold getChild setChild
  rw [List.getD_eq_getElem?_getD, List.getElem?_set_ne hij, ← List.getD_eq_getElem?_getD]

theorem getD_lt_default_irrelevant (l : List Nat) (m : Nat) (hm : m < l.length)
    (d d' : Nat) : l.getD m d = l.getD m d' := by
  rw [List.getD_eq_getElem?_getD, List.getD_eq_getElem?_getD,
    List.getElem?_eq_getElem hm]
  rfl

/-- The head of a drop. -/
theorem drop_eq_getD_cons (l : List Nat) (m : Nat) (hm : m < l.length) :
    l.drop m = l.getD m 0 :: l.drop (m + 1) := by
  induction l generalizing m with
  | nil => simp at hm
  | cons x xs ih =>
    cases m with
    | zero => rfl
    | succ m =>
      simp only [List.drop_succ_cons, List.getD_cons_succ]
      exact ih m (by simpa using hm)

theorem commonPrefixLen_cons_zero {x y : Nat} {xs ys : List Nat}
    (h : commonPrefixLen (x :: xs) (y :: ys) = 0) : x ≠ y := by
  intro hxy
  simp [commonPrefixLen, hxy] at h

theorem commonPrefixLen_cons_ne {x y : Nat} (xs ys : List Nat) (h : x ≠ y) :
    commonPrefixLen (x :: xs) (y :: ys) = 0 := by
  simp [commonPrefixLen, h]

/-- After dropping the common prefix, nothing matches any more. -/
theorem commonPrefixLen_drop_zero (a b : List Nat)
    (ha : commonPrefixLen a b < a.length) (hb : commonPrefixLen a b < b.length) :
    commonPrefixLen (a.drop (commonPrefixLen a b)) (b.drop (commonPrefixLen a b)) = 0 := by
  have hmis := commonPrefixLen_mismatch a b ha hb
  rw [drop_eq_getD_cons a _ ha, drop_eq_getD_cons b _ hb]
  exact commonPrefixLen_cons_ne _ _ hmis

/-- A valid path never fully matches a sentinel-free prefix. -/
theorem valid_cpl_lt {nk p : List Nat} (hv : isValidPath nk = true)
    (hp : ∀ x ∈ p, x < 16) : commonPrefixLen nk p < nk.length := by
  rcases Nat.lt_or_ge (commonPrefixLen nk p) nk.length with h | h
  · exact h
  · exfalso
    have hle := commonPrefixLen_le_left nk p
    have hm : commonPrefixLen nk p = nk.length := by omega
    have htake := commonPrefixLen_take nk p
    rw [hm, List.take_length] at htake
    rw [isValidPath_iff] at hv
    obtain ⟨rem, rfl, hrem⟩ := hv
    have h16 : (16 : Nat) ∈ p.take (rem ++ [16]).length := by
      rw [← htake]
      simp
    have := hp 16 (List.mem_of_mem_take h16)
    omega

/-- A valid path entry is at most the sentinel. -/
theorem valid_nibAt_le {nk : List Nat} (hv : isValidPath nk = true) (m : Nat) :
    nibAt nk m ≤ 16 := by
  rw [isValidPath_iff] at hv
  obtain ⟨rem, rfl, hrem⟩ := hv
  unfold nibAt
  rcases Nat.lt_or_ge m (rem ++ [16]).length with h | h
  · rw [List.getD_eq_getElem?_getD, List.getElem?_eq_getElem h]
    have hmem : (rem ++ [16])[m] ∈ rem ++ [16] := List.getElem_mem h
    rcases List.mem_append.mp hmem with hl | hl
    · have := hrem _ hl
      simp only [Option.getD_some]
      omega
    · simp only [Option.getD_some]
      simp at hl
      omega
  · rw [List.getD_eq_getElem?_getD, List.getElem?_eq_none (by omega)]
    rfl

/-- The sentinel appears only as the final entry of a valid path. -/
theorem valid_nibAt_16 {nk : List Nat} (hv : isValidPath nk = true) (m : Nat)
    (hm : m < nk.length) (h16 : nibAt nk m = 16) : m = nk.length - 1 := by
  rw [isValidPath_iff] at hv
  obtain ⟨rem, rfl, hrem⟩ := hv
  rcases Nat.lt_or_ge m rem.length with h | h
  · exfalso
    unfold nibAt at h16
    rw [List.getD_eq_getElem?_getD, List.getElem?_append_left h,
      List.getElem?_eq_getElem h] at h16
    have := hrem _ (List.getElem_mem h)
    simp at h16
    omega
  · simp at hm
    simp
    omega

theorem insertAt_ne_empty (t : Node) (pk v : List Nat) :
    insertAt t pk v ≠ .empty := by
  cases t with
  | empty =>
    rw [insertAt_empty]
    simp
  | leaf k' v' =>
    rw [insertAt_leaf]
    simp only
    split
    · simp
    · split <;> simp
  | branch ch val =>
    rw [insertAt_branch]
    split <;> simp
  | ext p c =>
    rw [insertAt_ext]
    simp only
    split
    · split <;> simp
    · split <;> simp

theorem isEmptyNode_false_iff (t : Node) : isEmptyNode t = false ↔ t ≠ .empty := by
  cases t <;> simp [isEmptyNode]

theorem insertAt_isBranch (ch : List Node) (val : Option (List Nat)) (pk v : List Nat) :
    isBranchNode (insertAt (.branch ch val) pk v) = true := by
  rw [insertAt_branch]
  split <;> simp [isBranchNode]

/-! ### Occupancy counting -/
theorem one_occupied (ch : List Node) (i : Nat) (hi : i < ch.length)
    (hne : isEmptyNode (getChild ch i) = false) :
    1 ≤ (ch.filter fun n => !isEmptyNode n).length := by
  induction ch generalizing i with
  | nil => simp at hi
  | cons x xs ih =>
    cases i with
    | zero =>
      have hx : isEmptyNode x = false := hne
      simp [List.filter_cons, hx]
    | succ i =>
      have := ih i (by simpa using hi) hne
      rw [List.filter_cons]
      split <;> simp <;> omega

theorem two_occupied (ch : List Node) (i j : Nat) (hij : i ≠ j)
    (hi : i < ch.length) (hj : j < ch.length)
    (hni : isEmptyNode (getChild ch i) = false)
    (hnj : isEmptyNode (getChild ch j) = false) :
    2 ≤ (ch.filter fun n => !isEmptyNode n).length := by
  induction ch generalizing i j with
  | nil => simp at hi
  | cons x xs ih =>
    cases i with
    | zero =>
      cases j with
      | zero => exact absurd rfl hij
      | succ j =>
        have hx : isEmptyNode x = false := hni
        have h1 := one_occupied xs j (by simpa using hj) hnj
        simp [List.filter_cons, hx]
        omega
    | succ i =>
      cases j with
      | zero =>
        have hx : isEmptyNode x = false := hnj
        have h1 := one_occupied xs i (by simpa using hi) hni
        simp [List.filter_cons, hx]
        omega
      | succ j =>
        have := ih i j (by omega) (by simpa using hi) (by simpa using hj) hni hnj
        rw [List.filter_cons]
        split <;> simp <;> omega

/-- Writing a non-empty node into a slot cannot lower the occupancy. -/
theorem occupied_set_ge (ch : List Node) (i : Nat) (n : Node)
    (hn : isEmptyNode n = false) (val : Option (List Nat)) :
    occupiedCount ch val ≤ occupiedCount (setChild ch i n) val := by
  unfold occupiedCount setChild
  have : (ch.filter fun m => !isEmptyNode m).length ≤
      ((ch.set i n).filter fun m => !isEmptyNode m).length := by
    induction ch generalizing i with
    | nil => simp
    | cons x xs ih =>
      cases i with
      | zero =>
        simp only [List.set_cons_zero, List.filter_cons, hn]
        split <;> simp <;> omega
      | succ i =>
        simp only [List.set_cons_succ, List.filter_cons]
        have := ih i
        split <;> simp <;> omega
  omega

theorem wfListB_set (ch : List Node) (i : Nat) (n : Node)
    (hch : wfListB ch = true) (hn : wfB n = true) :
    wfListB (setChild ch i n) = true := by
  unfold setChild
  induction ch generalizing i with
  | nil => simpa using hch
  | cons x xs ih =>
    have hx : wfB x = true ∧ wfListB xs = true := by
      have := hch
      unfold wfListB at this
      simpa using this
    cases i with
    | zero =>
      show wfListB (n :: xs) = true
      unfold wfListB
      simp [hn, hx.2]
    | succ i =>
      show wfListB (x :: xs.set i n) = true
      unfold wfListB
      simp [hx.1, ih i hx.2]

theorem wfListB_emptyChildren : wfListB emptyChildren = true := by decide

/-! ### More valid-path facts -/
theorem valid_nibAt_last {nk : List Nat} (hv : isValidPath nk = true) :
    nibAt nk (nk.length - 1) = 16 := by
  rw [isValidPath_iff] at hv
  obtain ⟨rem, rfl, _⟩ := hv
  unfold nibAt
  rw [List.getD_eq_getElem?_getD]
  have hlen : (rem ++ [16]).length - 1 = rem.length := by simp
  rw [hlen, List.getElem?_append_right le_rfl]
  simp

theorem valid_succ_lt {nk : List Nat} (hv : isValidPath nk = true) (m : Nat)
    (hm : m < nk.length) (h16 : nibAt nk m ≠ 16) : m + 1 < nk.length := by
  rcases Nat.lt_or_ge (m + 1) nk.length with h | h
  · exact h
  · exfalso
    have hme : m = nk.length - 1 := by omega
    rw [hme] at h16
    exact h16 (valid_nibAt_last hv)

theorem valid_take_lt {nk : List Nat} (hv : isValidPath nk = true) (m : Nat)
    (hm : m < nk.length) : ∀ x ∈ nk.take m, x < 16 := by
  rw [isValidPath_iff] at hv
  obtain ⟨rem, rfl, hrem⟩ := hv
  intro x hx
  have hmr : m ≤ rem.length := by
    simp at hm
    omega
  rw [List.take_append_of_le_length hmr] at hx
  exact hrem x (List.mem_of_mem_take hx)

theorem cpl_nibAt_eq (a b : List Nat) (j : Nat) (hj : j < commonPrefixLen a b) :
    nibAt a j = nibAt b j := by
  induction a generalizing b j with
  | nil => cases b <;> simp [commonPrefixLen] at hj
  | cons x xs ih =>
    cases b with
    | nil => simp [commonPrefixLen] at hj
    | cons y ys =>
      by_cases hxy : x = y
      · cases j with
        | zero => simp [nibAt, hxy]
        | succ j =>
          show nibAt xs j = nibAt ys j
          refine ih ys j ?_
          rw [commonPrefixLen, if_pos hxy] at hj
          omega
      · rw [commonPrefixLen_cons_ne xs ys hxy] at hj
        omega

/-- Two valid paths: a strict common-prefix bound on one side carries to the
other. -/
theorem valid_valid_cpl_lt {pk ks : List Nat} (hpk : isValidPath pk = true)
    (hks : isValidPath ks = true) (hm : commonPrefixLen pk ks < ks.length) :
    commonPrefixLen pk ks < pk.length := by
  rcases Nat.lt_or_ge (commonPrefixLen pk ks) pk.length with h | h
  · exact h
  · exfalso
    have hle := commonPrefixLen_le_left pk ks
    have hmeq : commonPrefixLen pk ks = pk.length := by omega
    have hpos : 1 ≤ pk.length := isValidPath_length_pos hpk
    have hlast : nibAt pk (pk.length - 1) = 16 := valid_nibAt_last hpk
    have heq : nibAt pk (pk.length - 1) = nibAt ks (pk.length - 1) :=
      cpl_nibAt_eq pk ks (pk.length - 1) (by omega)
    have h16 : nibAt ks (pk.length - 1) = 16 := by rw [← heq, hlast]
    have := valid_nibAt_16 hks (pk.length - 1) (by omega) h16
    omega

theorem nibAt_head_lt {p : List Nat} (hne : p ≠ []) (hall : ∀ x ∈ p, x < 16) :
    nibAt p 0 < 16 := by
  cases p with
  | nil => exact absurd rfl hne
  | cons x xs => exact hall x (by simp)

theorem occupiedCount_le_some (ch : List Node) (val : Option (List Nat)) (v : List Nat) :
    occupiedCount ch val ≤ occupiedCount ch (some v) := by
  unfold occupiedCount
  cases val <;> simp

theorem isBranchNode_not_empty {t : Node} (h : isBranchNode t = true) :
    isEmptyNode t = false := by
  cases t <;> simp [isBranchNode, isEmptyNode] at h ⊢

theorem wfB_branch_parts {ch : List Node} {val : Option (List Nat)}
    (h : wfB (.branch ch val) = true) :
    ch.length = 16 ∧ wfListB ch = true ∧ 2 ≤ occupiedCount ch val := by
  unfold wfB at h
  simp only [Bool.and_eq_true, beq_iff_eq, decide_eq_true_eq] at h
  exact ⟨h.1.1, h.1.2, h.2⟩

theorem wfB_branch_intro {ch : List Node} {val : Option (List Nat)}
    (h1 : ch.length = 16) (h2 : wfListB ch = true)
    (h3 : 2 ≤ occupiedCount ch val) : wfB (.branch ch val) = true := by
  unfold wfB
  simp only [Bool.and_eq_true, beq_iff_eq, decide_eq_true_eq]
  exact ⟨⟨h1, h2⟩, h3⟩

theorem wfB_ext_parts {p : List Nat} {c : Node} (h : wfB (.ext p c) = true) :
    p ≠ [] ∧ (∀ x ∈ p, x < 16) ∧ isBranchNode c = true ∧ wfB c = true := by
  unfold wfB at h
  simp only [Bool.and_eq_true, Bool.not_eq_eq_eq_not, Bool.not_false,
    List.all_eq_true, decide_eq_true_eq] at h
  refine ⟨?_, h.1.1.2, h.1.2, h.2⟩
  intro hc
  rw [hc] at h
  simpa using h.1.1.1

theorem wfB_ext_intro {p : List Nat} {c : Node} (h1 : p ≠ [])
    (h2 : ∀ x ∈ p, x < 16) (h3 : isBranchNode c = true) (h4 : wfB c = true) :
    wfB (.ext p c) = true := by
  unfold wfB
  simp only [Bool.and_eq_true, Bool.not_eq_eq_eq_not, Bool.not_false,
    List.all_eq_true, decide_eq_true_eq]
  refine ⟨⟨⟨?_, h2⟩, h3⟩, h4⟩
  simpa using h1

theorem insertAt_ext_cpl_zero_isBranch (p : List Nat) (c : Node) (pk v : List Nat)
    (hm : commonPrefixLen pk p = 0) :
    isBranchNode (insertAt (.ext p c) pk v) = true := by
  rw [insertAt_ext]
  simp only [if_pos hm]
  split <;> simp [isBranchNode]

/-- The split of a leaf along two valid paths yields a well-formed branch
with both slots occupied. -/
theorem leafSplit_wf (pk ks v vs : List Nat) (hpk : isValidPath pk = true)
    (hks : isValidPath ks = true)
    (hm1 : commonPrefixLen pk ks < ks.length)
    (hm2 : commonPrefixLen pk ks < pk.length) :
    wfB (.branch
      (branchInsert
        (branchInsert emptyChildren none (nibAt ks (commonPrefixLen pk ks))
          (.leaf (ks.drop (commonPrefixLen pk ks + 1)) vs)).1
        (branchInsert emptyChildren none (nibAt ks (commonPrefixLen pk ks))
          (.leaf (ks.drop (commonPrefixLen pk ks + 1)) vs)).2
        (nibAt pk (commonPrefixLen pk ks))
        (.leaf (pk.drop (commonPrefixLen pk ks + 1)) v)).1
      (branchInsert
        (branchInsert emptyChildren none (nibAt ks (commonPrefixLen pk ks))
          (.leaf (ks.drop (commonPrefixLen pk ks + 1)) vs)).1
        (branchInsert emptyChildren none (nibAt ks (commonPrefixLen pk ks))
          (.leaf (ks.drop (commonPrefixLen pk ks + 1)) vs)).2
        (nibAt pk (commonPrefixLen pk ks))
        (.leaf (pk.drop (commonPrefixLen pk ks + 1)) v)).2) = true := by
  set m := commonPrefixLen pk ks with hmdef
  have hne : nibAt ks m ≠ nibAt pk m := by
    have h := commonPrefixLen_mismatch pk ks hm2 hm1
    unfold nibAt
    rw [getD_lt_default_irrelevant ks m hm1 16 0,
      getD_lt_default_irrelevant pk m hm2 16 0]
    exact fun hc => h hc.symm
  have hks16 : nibAt ks m ≤ 16 := valid_nibAt_le hks m
  have hpk16 : nibAt pk m ≤ 16 := valid_nibAt_le hpk m
  by_cases h1 : nibAt ks m = 16
  · -- the old leaf's remaining path is just the sentinel: value slot
    have h2 : nibAt pk m ≠ 16 := by
      rw [h1] at hne
      exact fun hc => hne hc.symm
    have h2lt : nibAt pk m < 16 := by omega
    have hdrop : m + 1 < pk.length := valid_succ_lt hpk m hm2 h2
    simp only [branchInsert, if_pos h1, if_neg h2, leafValueOf]
    refine wfB_branch_intro ?_ ?_ ?_
    · rw [setChild_length]
      rfl
    · exact wfListB_set _ _ _ wfListB_emptyChildren
        (by show isValidPath _ = true; exact valid_drop hpk (m + 1) hdrop)
    · unfold occupiedCount
      -- one occupied child plus the value slot
      have hocc := one_occupied (setChild emptyChildren (nibAt pk m)
        (.leaf (pk.drop (m + 1)) v)) (nibAt pk m)
        (by rw [setChild_length]; show nibAt pk m < 16; omega)
        (by rw [getChild_set_self _ _ _ (by show nibAt pk m < 16; omega)]
            rfl)
      have hif : (if (some vs).isSome = true then 1 else 0) = 1 := rfl
      rw [hif]
      omega
  · have h1lt : nibAt ks m < 16 := by omega
    have hdrop1 : m + 1 < ks.length := valid_succ_lt hks m hm1 h1
    by_cases h2 : nibAt pk m = 16
    · simp only [branchInsert, if_neg h1, if_pos h2, leafValueOf]
      refine wfB_branch_intro ?_ ?_ ?_
      · rw [setChild_length]
        rfl
      · exact wfListB_set _ _ _ wfListB_emptyChildren
          (by show isValidPath _ = true; exact valid_drop hks (m + 1) hdrop1)
      · unfold occupiedCount
        have hocc := one_occupied (setChild emptyChildren (nibAt ks m)
          (.leaf (ks.drop (m + 1)) vs)) (nibAt ks m)
          (by rw [setChild_length]; show nibAt ks m < 16; omega)
          (by rw [getChild_set_self _ _ _ (by show nibAt ks m < 16; omega)]
              rfl)
        have hif : (if (some v).isSome = true then 1 else 0) = 1 := rfl
        rw [hif]
        omega
    · have h2lt : nibAt pk m < 16 := by omega
      have hdrop2 : m + 1 < pk.length := valid_succ_lt hpk m hm2 h2
      simp only [branchInsert, if_neg h1, if_neg h2]
      refine wfB_branch_intro ?_ ?_ ?_
      · rw [setChild_length, setChild_length]
        rfl
      · refine wfListB_set _ _ _ (wfListB_set _ _ _ wfListB_emptyChildren ?_) ?_
        · show isValidPath _ = true
          exact valid_drop hks (m + 1) hdrop1
        · show isValidPath _ = true
          exact valid_drop hpk (m + 1) hdrop2
      · unfold occupiedCount
        have hocc := two_occupied
          (setChild (setChild emptyChildren (nibAt ks m) (.leaf (ks.drop (m + 1)) vs))
            (nibAt pk m) (.leaf (pk.drop (m + 1)) v))
          (nibAt ks m) (nibAt pk m) hne
          (by rw [setChild_length, setChild_length]; show nibAt ks m < 16; omega)
          (by rw [setChild_length, setChild_length]; show nibAt pk m < 16; omega)
          (by rw [getChild_set_ne _ _ _ _ (fun hc => hne hc.symm),
                getChild_set_self _ _ _ (by show nibAt ks m < 16; omega)]
              rfl)
          (by rw [getChild_set_self _ _ _
                (by rw [setChild_length]; show nibAt pk m < 16; omega)]
              rfl)
        omega

/-- Insertion with a valid (terminated) key preserves the structural
invariants. -/
theorem insertAt_wf :
    ∀ (N : Nat) (t : Node) (pk v : List Nat), nsize t ≤ N → wfB t = true →
      isValidPath pk = true → wfB (insertAt t pk v) = true := by
  intro N
  induction N with
  | zero =>
    intro t pk v hN
    have := nsize_pos t
    omega
  | succ N ih =>
    intro t pk v hN hwf hval
    cases t with
    | empty =>
      rw [insertAt_empty]
      exact hval
    | leaf ks vs =>
      rw [insertAt_leaf]
      have hks : isValidPath ks = true := hwf
      simp only
      by_cases hm : commonPrefixLen pk ks = ks.length
      · rw [if_pos hm]
        exact hks
      · rw [if_neg hm]
        have hm1 : commonPrefixLen pk ks < ks.length := by
          have := commonPrefixLen_le_right pk ks
          omega
        have hm2 : commonPrefixLen pk ks < pk.length :=
          valid_valid_cpl_lt hval hks hm1
        have hbr := leafSplit_wf pk ks v vs hval hks hm1 hm2
        by_cases hm0 : commonPrefixLen pk ks = 0
        · rw [if_pos hm0]
          exact hbr
        · rw [if_neg hm0]
          refine wfB_ext_intro ?_ ?_ rfl hbr
          · intro hc
            have hl := congrArg List.length hc
            rw [List.length_take] at hl
            simp only [List.length_nil] at hl
            omega
          · exact fun x hx => valid_take_lt hval _ hm2 x hx
    | branch ch val =>
      rw [insertAt_branch]
      obtain ⟨hlen, hwfl, hocc⟩ := wfB_branch_parts hwf
      by_cases h16 : nibAt pk 0 = 16
      · rw [if_pos h16]
        refine wfB_branch_intro hlen hwfl ?_
        calc 2 ≤ occupiedCount ch val := hocc
          _ ≤ occupiedCount ch (some v) := occupiedCount_le_some ch val v
      · rw [if_neg h16]
        obtain ⟨i0, rest, hnk, hi0, hrest⟩ := valid_cons hval h16
        have hNc : nsize (getChild ch (nibAt pk 0)) ≤ N := by
          have h1 := nsize_getChild_lt ch (nibAt pk 0) val
          simp only [nsize] at h1 hN
          omega
        have hdrop : pk.drop 1 = rest := by rw [hnk]; rfl
        have hwfi : wfB (insertAt (getChild ch (nibAt pk 0)) (pk.drop 1) v) = true := by
          refine ih _ _ _ hNc (wfB_getChild ch _ hwfl) ?_
          rw [hdrop]
          exact hrest
        refine wfB_branch_intro ?_ ?_ ?_
        · rw [setChild_length]
          exact hlen
        · exact wfListB_set _ _ _ hwfl hwfi
        · calc 2 ≤ occupiedCount ch val := hocc
            _ ≤ _ := occupied_set_ge ch _ _
              ((isEmptyNode_false_iff _).mpr (insertAt_ne_empty _ _ _)) val
    | ext p c =>
      rw [insertAt_ext]
      obtain ⟨hpne, hpall, hbr, hwfc⟩ := wfB_ext_parts hwf
      have hextsize : nsize (Node.ext p c) = 1 + p.length + nsize c := rfl
      simp only
      by_cases hm0 : commonPrefixLen pk p = 0
      · rw [if_pos hm0]
        have hp0 : nibAt p 0 < 16 := nibAt_head_lt hpne hpall
        have hp0ne : nibAt p 0 ≠ 16 := by omega
        -- the wrapped child is well-formed and non-empty
        have hwrapwf : wfB (if p.length ≤ 1 then c else Node.ext (p.drop 1) c) = true := by
          split
          · exact hwfc
          · refine wfB_ext_intro ?_ ?_ hbr hwfc
            · intro hcon
              have := congrArg List.length hcon
              simp at this
              omega
            · exact fun x hx => hpall x (List.mem_of_mem_drop hx)
        have hwrapne : isEmptyNode
            (if p.length ≤ 1 then c else Node.ext (p.drop 1) c) = false := by
          split
          · exact isBranchNode_not_empty hbr
          · rfl
        simp only [branchInsert, if_neg hp0ne]
        by_cases h16 : nibAt pk 0 = 16
        · rw [if_pos h16]
          refine wfB_branch_intro ?_ ?_ ?_
          · rw [setChild_length]
            rfl
          · exact wfListB_set _ _ _ wfListB_emptyChildren hwrapwf
          · unfold occupiedCount
            have hocc := one_occupied (setChild emptyChildren (nibAt p 0)
              (if p.length ≤ 1 then c else Node.ext (p.drop 1) c)) (nibAt p 0)
              (by rw [setChild_length]; show nibAt p 0 < 16; omega)
              (by rw [getChild_set_self _ _ _ (by show nibAt p 0 < 16; omega)]
                  exact hwrapne)
            have hif : (if (some v).isSome = true then 1 else 0) = 1 := rfl
            rw [hif]
            omega
        · rw [if_neg h16]
          obtain ⟨j0, rest, hnk, hj0, hrest⟩ := valid_cons hval h16
          have hdrop : pk.drop 1 = rest := by rw [hnk]; rfl
          have hne : nibAt pk 0 ≠ nibAt p 0 := by
            rw [hnk]
            cases p with
            | nil => exact absurd rfl hpne
            | cons q qs =>
              show j0 ≠ q
              rw [hnk] at hm0
              exact commonPrefixLen_cons_zero hm0
          have hNc : nsize (getChild (setChild emptyChildren (nibAt p 0)
              (if p.length ≤ 1 then c else Node.ext (p.drop 1) c)) (nibAt pk 0)) ≤ N := by
            have h1 := nsize_getChild_branchInsert_lt p c (nibAt p 0) (nibAt pk 0)
            simp only [branchInsert, if_neg hp0ne] at h1
            rw [hextsize] at hN
            simp only [nsize] at h1
            omega
          have hwfsub : wfB (getChild (setChild emptyChildren (nibAt p 0)
              (if p.length ≤ 1 then c else Node.ext (p.drop 1) c)) (nibAt pk 0)) = true :=
            wfB_getChild _ _ (wfListB_set _ _ _ wfListB_emptyChildren hwrapwf)
          have hwfi := ih _ (pk.drop 1) v hNc hwfsub (by rw [hdrop]; exact hrest)
          refine wfB_branch_intro ?_ ?_ ?_
          · rw [setChild_length, setChild_length]
            rfl
          · exact wfListB_set _ _ _
              (wfListB_set _ _ _ wfListB_emptyChildren hwrapwf) hwfi
          · unfold occupiedCount
            have hocc := two_occupied
              (setChild (setChild emptyChildren (nibAt p 0)
                (if p.length ≤ 1 then c else Node.ext (p.drop 1) c)) (nibAt pk 0)
                (insertAt (getChild (setChild emptyChildren (nibAt p 0)
                  (if p.length ≤ 1 then c else Node.ext (p.drop 1) c)) (nibAt pk 0))
                  (pk.drop 1) v))
              (nibAt p 0) (nibAt pk 0) (fun hc => hne hc.symm)
              (by rw [setChild_length, setChild_length]; show nibAt p 0 < 16; omega)
              (by rw [setChild_length, setChild_length]
                  show nibAt pk 0 < 16
                  have := valid_nibAt_le hval 0
                  omega)
              (by rw [getChild_set_ne _ _ _ _ hne,
                    getChild_set_self _ _ _ (by show nibAt p 0 < 16; omega)]
                  exact hwrapne)
              (by rw [getChild_set_self _ _ _
                    (by rw [setChild_length]
                        show nibAt pk 0 < 16
                        have := valid_nibAt_le hval 0
                        omega)]
                  exact (isEmptyNode_false_iff _).mpr (insertAt_ne_empty _ _ _))
            omega
      · rw [if_neg hm0]
        have hmlt : commonPrefixLen pk p < pk.length := valid_cpl_lt hval hpall
        have hvald : isValidPath (pk.drop (commonPrefixLen pk p)) = true :=
          valid_drop hval _ hmlt
        by_cases hmp : commonPrefixLen pk p = p.length
        · rw [if_pos hmp]
          cases c with
          | branch bch bval =>
            refine wfB_ext_intro hpne hpall ?_ ?_
            · exact insertAt_isBranch bch bval _ _
            · refine ih _ _ _ ?_ hwfc hvald
              rw [hextsize] at hN
              have := nsize_pos (Node.branch bch bval)
              omega
          | empty => simp [isBranchNode] at hbr
          | leaf a b => simp [isBranchNode] at hbr
          | ext a b => simp [isBranchNode] at hbr
        · rw [if_neg hmp]
          have hmp' : commonPrefixLen pk p < p.length := by
            have := commonPrefixLen_le_right pk p
            omega
          have hinnerwf : wfB (Node.ext (p.drop (commonPrefixLen pk p)) c) = true := by
            refine wfB_ext_intro ?_ ?_ hbr hwfc
            · intro hcon
              have := congrArg List.length hcon
              simp at this
              omega
            · exact fun x hx => hpall x (List.mem_of_mem_drop hx)
          have hNi : nsize (Node.ext (p.drop (commonPrefixLen pk p)) c) ≤ N := by
            rw [hextsize] at hN
            have hsz : nsize (Node.ext (p.drop (commonPrefixLen pk p)) c) =
                1 + (p.drop (commonPrefixLen pk p)).length + nsize c := rfl
            rw [hsz, List.length_drop]
            omega
          have hinner := ih _ _ v hNi hinnerwf hvald
          refine wfB_ext_intro ?_ ?_ ?_ hinner
          · intro hcon
            have hl := congrArg List.length hcon
            rw [List.length_take] at hl
            simp only [List.length_nil] at hl
            omega
          · exact fun x hx => hpall x (List.mem_of_mem_take hx)
          · refine insertAt_ext_cpl_zero_isBranch _ _ _ _ ?_
            exact commonPrefixLen_drop_zero pk p hmlt hmp'

/-! ### Decomposition facts for common prefixes -/
theorem cpl_decompose (m : Nat) :
    ∀ (a b : List Nat), a.take m = b.take m → m ≤ a.length → m ≤ b.length →
      commonPrefixLen a b = m + commonPrefixLen (a.drop m) (b.drop m) := by
  induction m with
  | zero => intro a b _ _ _; simp
  | succ m ih =>
    intro a b htake ha hb
    cases a with
    | nil => simp at ha
    | cons x xs =>
      cases b with
      | nil => simp at hb
      | cons y ys =>
        simp only [List.take_succ_cons, List.cons.injEq] at htake
        obtain ⟨rfl, htake'⟩ := htake
        have hc : commonPrefixLen (x :: xs) (x :: ys) = commonPrefixLen xs ys + 1 := by
          simp [commonPrefixLen]
        rw [hc]
        simp only [List.drop_succ_cons]
        rw [ih xs ys htake' (by simpa using ha) (by simpa using hb)]
        omega

theorem cpl_take_self (a : List Nat) (m : Nat) (hm : m ≤ a.length) :
    commonPrefixLen a (a.take m) = m := by
  have h := commonPrefixLen_refl_append (a.take m) (a.drop m)
  rw [List.take_append_drop] at h
  rw [h, List.length_take]
  omega

theorem eq_iff_drop_of_take_eq (a b : List Nat) (m : Nat)
    (h : a.take m = b.take m) : a = b ↔ a.drop m = b.drop m := by
  constructor
  · intro hab
    rw [hab]
  · intro hd
    calc a = a.take m ++ a.drop m := (List.take_append_drop m a).symm
      _ = b.take m ++ b.drop m := by rw [h, hd]
      _ = b := List.take_append_drop m b

/-- Heads and tails characterise equality of nonempty lists. -/
theorem cons_eq_cons_iff (x y : Nat) (xs ys : List Nat) :
    x :: xs = y :: ys ↔ x = y ∧ xs = ys := by
  simp

/-- The per-child behaviour of the branch built when an extension meets a
key with no shared prefix: reading the wrapped child at the extension's
first nibble restores the extension's own map. -/
theorem toMap_wrap (p : List Nat) (c : Node) (hpne : p ≠ [])
    (hall : ∀ x ∈ p, x < 16) (nk : List Nat) (h16 : nibAt nk 0 ≠ 16) :
    toMap (getChild (setChild emptyChildren (nibAt p 0)
        (if p.length ≤ 1 then c else Node.ext (p.drop 1) c)) (nibAt nk 0))
      (nk.drop 1) = toMap (.ext p c) nk := by
  cases p with
  | nil => exact absurd rfl hpne
  | cons p0 ptail =>
    have hp0 : nibAt (p0 :: ptail) 0 = p0 := rfl
    rw [hp0]
    cases nk with
    | nil =>
      exfalso
      exact h16 rfl
    | cons j rest =>
      have hj : nibAt (j :: rest) 0 = j := rfl
      rw [hj]
      rw [toMap_ext]
      by_cases hji : j = p0
      · subst hji
        rw [getChild_set_self _ _ _ (by
          have h16 : j < 16 := hall j (by simp)
          simp [emptyChildren]
          omega)]
        cases ptail with
        | nil =>
          rw [if_pos (by simp)]
          have hcpl : commonPrefixLen (j :: rest) [j] = 1 := by
            simp [commonPrefixLen]
          rw [hcpl, if_pos (by simp)]
          rfl
        | cons q qtail =>
          have hlen : ¬((j :: q :: qtail).length ≤ 1) := by simp
          rw [if_neg hlen]
          rw [toMap_ext]
          have hcpl : commonPrefixLen (j :: rest) (j :: q :: qtail) =
              commonPrefixLen rest (q :: qtail) + 1 := by
            simp [commonPrefixLen]
          rw [hcpl]
          simp only [List.drop_succ_cons, List.drop_zero, List.length_cons]
          by_cases hc : commonPrefixLen rest (q :: qtail) = qtail.length + 1
          · rw [if_pos (by omega), if_pos (by omega)]
          · rw [if_neg (by omega), if_neg (by omega)]
      · rw [getChild_set_ne _ _ _ _ (fun hc => hji hc.symm), getChild_emptyChildren]
        rw [toMap_empty]
        have hcpl : commonPrefixLen (j :: rest) (p0 :: ptail) = 0 :=
          commonPrefixLen_cons_ne _ _ hji
        rw [hcpl]
        rw [if_neg (by simp)]

theorem drop_eq_nibAt_cons (l : List Nat) (m : Nat) (hm : m < l.length) :
    l.drop m = nibAt l m :: l.drop (m + 1) := by
  unfold nibAt
  rw [getD_lt_default_irrelevant l m hm 16 0]
  exact drop_eq_getD_cons l m hm

/-- At a sentinel position, the rest of a valid path is exactly the
sentinel. -/
theorem valid_drop_sentinel {nk : List Nat} (hv : isValidPath nk = true)
    (m : Nat) (hm : m < nk.length) (h16 : nibAt nk m = 16) :
    nk.drop m = [16] := by
  have hlast := valid_nibAt_16 hv m hm h16
  rw [drop_eq_nibAt_cons nk m hm, h16]
  have : nk.drop (m + 1) = [] := by
    rw [List.drop_eq_nil_iff]
    omega
  rw [this]

/-- Reading back any valid path from the two-leaf branch produced by a leaf
split: the new key's remainder maps to the new value, the old key's
remainder to the old value, anything else to nothing. -/
theorem toMap_leafSplit (pk ks v vs : List Nat) (hpk : isValidPath pk = true)
    (hks : isValidPath ks = true)
    (hm1 : commonPrefixLen pk ks < ks.length)
    (hm2 : commonPrefixLen pk ks < pk.length)
    (w : List Nat) (hw : isValidPath w = true) :
    toMap (.branch
      (branchInsert
        (branchInsert emptyChildren none (nibAt ks (commonPrefixLen pk ks))
          (.leaf (ks.drop (commonPrefixLen pk ks + 1)) vs)).1
        (branchInsert emptyChildren none (nibAt ks (commonPrefixLen pk ks))
          (.leaf (ks.drop (commonPrefixLen pk ks + 1)) vs)).2
        (nibAt pk (commonPrefixLen pk ks))
        (.leaf (pk.drop (commonPrefixLen pk ks + 1)) v)).1
      (branchInsert
        (branchInsert emptyChildren none (nibAt ks (commonPrefixLen pk ks))
          (.leaf (ks.drop (commonPrefixLen pk ks + 1)) vs)).1
        (branchInsert emptyChildren none (nibAt ks (commonPrefixLen pk ks))
          (.leaf (ks.drop (commonPrefixLen pk ks + 1)) vs)).2
        (nibAt pk (commonPrefixLen pk ks))
        (.leaf (pk.drop (commonPrefixLen pk ks + 1)) v)).2) w =
      if w = pk.drop (commonPrefixLen pk ks) then some v
      else if w = ks.drop (commonPrefixLen pk ks) then some vs
      else none := by
  set m := commonPrefixLen pk ks with hmdef
  have hne : nibAt ks m ≠ nibAt pk m := by
    have h := commonPrefixLen_mismatch pk ks hm2 hm1
    unfold nibAt
    rw [getD_lt_default_irrelevant ks m hm1 16 0,
      getD_lt_default_irrelevant pk m hm2 16 0]
    exact fun hc => h hc.symm
  have hks16 : nibAt ks m ≤ 16 := valid_nibAt_le hks m
  have hpk16 : nibAt pk m ≤ 16 := valid_nibAt_le hpk m
  have hdks : ks.drop m = nibAt ks m :: ks.drop (m + 1) := drop_eq_nibAt_cons ks m hm1
  have hdpk : pk.drop m = nibAt pk m :: pk.drop (m + 1) := drop_eq_nibAt_cons pk m hm2
  by_cases h1 : nibAt ks m = 16
  · -- old leaf's remainder is the sentinel: it lands in the value slot
    have h2 : nibAt pk m ≠ 16 := by
      rw [h1] at hne
      exact fun hc => hne hc.symm
    have h2lt : nibAt pk m < 16 := by omega
    have hks' : ks.drop m = [16] := valid_drop_sentinel hks m hm1 h1
    simp only [branchInsert, if_pos h1, if_neg h2, leafValueOf]
    rw [toMap_branch]
    by_cases hj : nibAt w 0 = 16
    · rw [if_pos hj]
      have hw16 : w = [16] := valid_head_sixteen hw hj
      rw [if_neg (by rw [hw16, hdpk]; intro hc; injection hc with hc1 _; omega),
        if_pos (by rw [hw16, hks'])]
    · rw [if_neg hj]
      obtain ⟨j, rest, rfl, hjlt, hrest⟩ := valid_cons hw hj
      have hjat : nibAt (j :: rest) 0 = j := rfl
      rw [hjat]
      by_cases hji : j = nibAt pk m
      · rw [hji, getChild_set_self _ _ _ (by show nibAt pk m < 16; omega)]
        rw [toMap_leaf]
        have hdr : (nibAt pk m :: rest).drop 1 = rest := rfl
        rw [hdr, hdpk]
        by_cases hr : rest = pk.drop (m + 1)
        · rw [if_pos hr, if_pos (by rw [hr])]
        · rw [if_neg hr, if_neg (by intro hc; injection hc with _ hc2; exact hr hc2),
            if_neg (by rw [hks']; intro hc; injection hc with hc1 _; exact h2 hc1)]
      · rw [getChild_set_ne _ _ _ _ (fun hc => hji hc.symm), getChild_emptyChildren,
          toMap_empty]
        rw [if_neg (by rw [hdpk]; intro hc; injection hc with hc1 _; exact hji hc1),
          if_neg (by rw [hks']; intro hc; injection hc with hc1 _; exact hj hc1)]
  · have h1lt : nibAt ks m < 16 := by omega
    by_cases h2 : nibAt pk m = 16
    · -- new key's remainder is the sentinel: the new value fills the slot
      have hpk' : pk.drop m = [16] := valid_drop_sentinel hpk m hm2 h2
      simp only [branchInsert, if_neg h1, if_pos h2, leafValueOf]
      rw [toMap_branch]
      by_cases hj : nibAt w 0 = 16
      · rw [if_pos hj]
        have hw16 : w = [16] := valid_head_sixteen hw hj
        rw [if_pos (by rw [hw16, hpk'])]
      · rw [if_neg hj]
        obtain ⟨j, rest, rfl, hjlt, hrest⟩ := valid_cons hw hj
        have hjat : nibAt (j :: rest) 0 = j := rfl
        rw [hjat]
        rw [if_neg (by rw [hpk']; intro hc; injection hc with hc1 _; exact hj hc1)]
        by_cases hji : j = nibAt ks m
        · rw [hji, getChild_set_self _ _ _ (by show nibAt ks m < 16; omega)]
          rw [toMap_leaf]
          have hdr : (nibAt ks m :: rest).drop 1 = rest := rfl
          rw [hdr, hdks]
          by_cases hr : rest = ks.drop (m + 1)
          · rw [if_pos hr, if_pos (by rw [hr])]
          · rw [if_neg hr, if_neg (by intro hc; injection hc with _ hc2; exact hr hc2)]
        · rw [getChild_set_ne _ _ _ _ (fun hc => hji hc.symm), getChild_emptyChildren,
            toMap_empty]
          rw [if_neg (by rw [hdks]; intro hc; injection hc with hc1 _; exact hji hc1)]
    · -- both remainders keep a digit: two distinct child slots, empty value
      have h2lt : nibAt pk m < 16 := by omega
      simp only [branchInsert, if_neg h1, if_neg h2]
      rw [toMap_branch]
      by_cases hj : nibAt w 0 = 16
      · rw [if_pos hj]
        have hw16 : w = [16] := valid_head_sixteen hw hj
        rw [if_neg (by rw [hw16, hdpk]; intro hc; injection hc with hc1 _; omega),
          if_neg (by rw [hw16, hdks]; intro hc; injection hc with hc1 _; omega)]
      · rw [if_neg hj]
        obtain ⟨j, rest, rfl, hjlt, hrest⟩ := valid_cons hw hj
        have hjat : nibAt (j :: rest) 0 = j := rfl
        rw [hjat]
        have hdr : (j :: rest).drop 1 = rest := rfl
        by_cases hji2 : j = nibAt pk m
        · rw [hji2, getChild_set_self _ _ _
            (by rw [setChild_length]; show nibAt pk m < 16; omega)]
          rw [toMap_leaf]
          have hdr2 : (nibAt pk m :: rest).drop 1 = rest := rfl
          rw [hdr2, hdpk]
          by_cases hr : rest = pk.drop (m + 1)
          · rw [if_pos hr, if_pos (by rw [hr])]
          · rw [if_neg hr, if_neg (by intro hc; injection hc with _ hc2; exact hr hc2),
              if_neg (by rw [hdks]; intro hc; injection hc with hc1 _
                         exact hne hc1.symm)]
        · rw [getChild_set_ne _ _ _ _ (fun hc => hji2 hc.symm)]
          rw [if_neg (by rw [hdpk]; intro hc; injection hc with hc1 _; exact hji2 hc1)]
          by_cases hji1 : j = nibAt ks m
          · rw [hji1, getChild_set_self _ _ _ (by show nibAt ks m < 16; omega)]
            rw [toMap_leaf]
            have hdr2 : (nibAt ks m :: rest).drop 1 = rest := rfl
            rw [hdr2, hdks]
            by_cases hr : rest = ks.drop (m + 1)
            · rw [if_pos hr, if_pos (by rw [hr])]
            · rw [if_neg hr, if_neg (by intro hc; injection hc with _ hc2; exact hr hc2)]
          · rw [getChild_set_ne _ _ _ _ (fun hc => hji1 hc.symm),
              getChild_emptyChildren, toMap_empty]
            rw [if_neg (by rw [hdks]; intro hc; injection hc with hc1 _; exact hji1 hc1)]

theorem valid_cpl_full_eq {pk ks : List Nat} (hpk : isValidPath pk = true)
    (hks : isValidPath ks = true) (hm : commonPrefixLen pk ks = ks.length) :
    pk = ks := by
  have hle : ks.length ≤ pk.length := by
    have := commonPrefixLen_le_left pk ks
    omega
  have hkpos : 1 ≤ ks.length := isValidPath_length_pos hks
  have hlen : pk.length = ks.length := by
    rcases Nat.lt_or_ge ks.length pk.length with h | h
    · exfalso
      have h16 : nibAt pk (ks.length - 1) = 16 := by
        rw [cpl_nibAt_eq pk ks (ks.length - 1) (by omega)]
        exact valid_nibAt_last hks
      have := valid_nibAt_16 hpk (ks.length - 1) (by omega) h16
      omega
    · omega
  have htake := commonPrefixLen_full_right pk ks hm
  rw [← hlen, List.take_length] at htake
  exact htake

theorem eq_iff_tail (a b : List Nat) (ha : 0 < a.length) (hb : 0 < b.length)
    (h : nibAt a 0 = nibAt b 0) : a = b ↔ a.drop 1 = b.drop 1 := by
  cases a with
  | nil => simp at ha
  | cons x xs =>
    cases b with
    | nil => simp at hb
    | cons y ys =>
      have hx : x = y := h
      subst hx
      simp

theorem ne_of_head_ne {a b : List Nat} (h : nibAt a 0 ≠ nibAt b 0) : a ≠ b :=
  fun hc => h (by rw [hc])

theorem cpl_zero_of_head_ne (a b : List Nat) (ha : 0 < a.length)
    (hb : 0 < b.length) (h : nibAt a 0 ≠ nibAt b 0) :
    commonPrefixLen a b = 0 := by
  cases a with
  | nil => simp at ha
  | cons x xs =>
    cases b with
    | nil => simp at hb
    | cons y ys => exact commonPrefixLen_cons_ne _ _ h

theorem toMap_ext_none (p : List Nat) (c : Node) (nk : List Nat)
    (h : commonPrefixLen nk p ≠ p.length) : toMap (.ext p c) nk = none := by
  rw [toMap_ext, if_neg h]

theorem head_ne_of_cpl_zero (a b : List Nat) (ha : 0 < a.length)
    (hb : 0 < b.length) (h : commonPrefixLen a b = 0) :
    nibAt a 0 ≠ nibAt b 0 := by
  cases a with
  | nil => simp at ha
  | cons x xs =>
    cases b with
    | nil => simp at hb
    | cons y ys => exact commonPrefixLen_cons_zero h

/-- Insertion updates the represented map at exactly the inserted key. -/
theorem insertAt_toMap :
    ∀ (N : Nat) (t : Node) (pk v nk : List Nat), nsize t ≤ N → wfB t = true →
      isValidPath pk = true → isValidPath nk = true →
      toMap (insertAt t pk v) nk = if nk = pk then some v else toMap t nk := by
  intro N
  induction N with
  | zero =>
    intro t pk v nk hN
    have := nsize_pos t
    omega
  | succ N ih =>
    intro t pk v nk hN hwf hpk hnk
    have hpkpos : 0 < pk.length := isValidPath_length_pos hpk
    have hnkpos : 0 < nk.length := isValidPath_length_pos hnk
    cases t with
    | empty =>
      rw [insertAt_empty, toMap_leaf, toMap_empty]
    | leaf ks vs =>
      rw [insertAt_leaf]
      have hks : isValidPath ks = true := hwf
      simp only
      by_cases hm : commonPrefixLen pk ks = ks.length
      · rw [if_pos hm]
        have hpkks : pk = ks := valid_cpl_full_eq hpk hks hm
        rw [toMap_leaf, toMap_leaf, hpkks]
        by_cases hnkks : nk = ks
        · rw [if_pos hnkks, if_pos hnkks]
        · rw [if_neg hnkks, if_neg hnkks, if_neg hnkks]
      · rw [if_neg hm]
        have hm1 : commonPrefixLen pk ks < ks.length :=
          lt_of_le_of_ne (commonPrefixLen_le_right pk ks) hm
        have hm2 : commonPrefixLen pk ks < pk.length :=
          valid_valid_cpl_lt hpk hks hm1
        by_cases hm0 : commonPrefixLen pk ks = 0
        · rw [if_pos hm0]
          rw [toMap_leafSplit pk ks v vs hpk hks hm1 hm2 nk hnk]
          rw [hm0]
          simp only [List.drop_zero]
          rw [toMap_leaf]
        · rw [if_neg hm0]
          rw [toMap_ext]
          have hlenm : (pk.take (commonPrefixLen pk ks)).length =
              commonPrefixLen pk ks := by
            rw [List.length_take]
            omega
          rw [hlenm]
          have htkks : pk.take (commonPrefixLen pk ks) =
              ks.take (commonPrefixLen pk ks) := commonPrefixLen_take pk ks
          by_cases hfull : commonPrefixLen nk (pk.take (commonPrefixLen pk ks)) =
              commonPrefixLen pk ks
          · rw [if_pos hfull]
            have hmnk : commonPrefixLen pk ks < nk.length := by
              have h := valid_prefix_lt hnk (valid_take_lt hpk _ hm2)
                (by rw [hlenm]; exact hfull)
              rw [hlenm] at h
              exact h
            rw [toMap_leafSplit pk ks v vs hpk hks hm1 hm2
              (nk.drop (commonPrefixLen pk ks)) (valid_drop hnk _ hmnk)]
            have htknk : nk.take (commonPrefixLen pk ks) =
                pk.take (commonPrefixLen pk ks) := by
              have h := commonPrefixLen_full_right nk _
                (by rw [hlenm]; exact hfull)
              rw [hlenm] at h
              exact h
            have hiffpk := eq_iff_drop_of_take_eq nk pk
              (commonPrefixLen pk ks) htknk
            have hiffks := eq_iff_drop_of_take_eq nk ks
              (commonPrefixLen pk ks) (by rw [htknk, htkks])
            by_cases hd1 : nk.drop (commonPrefixLen pk ks) =
                pk.drop (commonPrefixLen pk ks)
            · rw [if_pos hd1, if_pos (hiffpk.mpr hd1)]
            · rw [if_neg hd1, if_neg (fun hc => hd1 (hiffpk.mp hc)), toMap_leaf]
              by_cases hd2 : nk.drop (commonPrefixLen pk ks) =
                  ks.drop (commonPrefixLen pk ks)
              · rw [if_pos hd2, if_pos (hiffks.mpr hd2)]
              · rw [if_neg hd2, if_neg (fun hc => hd2 (hiffks.mp hc))]
          · rw [if_neg hfull]
            have hnkpk : nk ≠ pk := by
              intro hc
              apply hfull
              rw [hc]
              exact cpl_take_self pk _ (by omega)
            rw [if_neg hnkpk, toMap_leaf]
            have hnkks : nk ≠ ks := by
              intro hc
              apply hfull
              rw [hc, htkks]
              exact cpl_take_self ks _ (by omega)
            rw [if_neg hnkks]
    | branch ch val =>
      rw [insertAt_branch]
      obtain ⟨hlen, hwfl, hocc⟩ := wfB_branch_parts hwf
      by_cases h16 : nibAt pk 0 = 16
      · rw [if_pos h16]
        rw [toMap_branch, toMap_branch]
        by_cases hn16 : nibAt nk 0 = 16
        · rw [if_pos hn16,
            if_pos (by rw [valid_head_sixteen hnk hn16, valid_head_sixteen hpk h16])]
        · rw [if_neg hn16, if_neg (ne_of_head_ne (by rw [h16]; exact hn16)),
            if_neg hn16]
      · rw [if_neg h16]
        rw [toMap_branch, toMap_branch]
        have hi : nibAt pk 0 < 16 := by
          have := valid_nibAt_le hpk 0
          omega
        by_cases hn16 : nibAt nk 0 = 16
        · rw [if_pos hn16,
            if_neg (ne_of_head_ne (by rw [hn16]; exact fun hc => h16 hc.symm)),
            if_pos hn16]
        · rw [if_neg hn16]
          by_cases hji : nibAt nk 0 = nibAt pk 0
          · rw [hji, getChild_set_self _ _ _ (by rw [hlen]; omega)]
            have hNc : nsize (getChild ch (nibAt pk 0)) ≤ N := by
              have h1 := nsize_getChild_lt ch (nibAt pk 0) val
              simp only [nsize] at h1 hN
              omega
            have hpk1 : 1 < pk.length := valid_succ_lt hpk 0 hpkpos h16
            have hnk1 : 1 < nk.length := valid_succ_lt hnk 0 hnkpos hn16
            rw [ih (getChild ch (nibAt pk 0)) (pk.drop 1) v (nk.drop 1) hNc
              (wfB_getChild ch _ hwfl) (valid_drop hpk 1 hpk1)
              (valid_drop hnk 1 hnk1)]
            have hiff := eq_iff_tail nk pk hnkpos hpkpos hji
            by_cases hd : nk.drop 1 = pk.drop 1
            · rw [if_pos hd, if_pos (hiff.mpr hd)]
            · rw [if_neg hd, if_neg (fun hc => hd (hiff.mp hc)), if_neg h16]
          · rw [getChild_set_ne _ _ _ _ (fun hc => hji hc.symm),
              if_neg (ne_of_head_ne hji), if_neg hn16]
    | ext p c =>
      rw [insertAt_ext]
      obtain ⟨hpne, hpall, hbr, hwfc⟩ := wfB_ext_parts hwf
      have hppos : 0 < p.length := List.length_pos.mpr hpne
      have hextsize : nsize (Node.ext p c) = 1 + p.length + nsize c := rfl
      simp only
      by_cases hm0 : commonPrefixLen pk p = 0
      · rw [if_pos hm0]
        have hp0lt : nibAt p 0 < 16 := nibAt_head_lt hpne hpall
        have hp0ne : nibAt p 0 ≠ 16 := by omega
        have hne : nibAt pk 0 ≠ nibAt p 0 :=
          head_ne_of_cpl_zero pk p hpkpos hppos hm0
        simp only [branchInsert, if_neg hp0ne]
        by_cases h16 : nibAt pk 0 = 16
        · rw [if_pos h16]
          rw [toMap_branch]
          by_cases hn16 : nibAt nk 0 = 16
          · rw [if_pos hn16,
              if_pos (by rw [valid_head_sixteen hnk hn16, valid_head_sixteen hpk h16])]
          · rw [if_neg hn16, toMap_wrap p c hpne hpall nk hn16,
              if_neg (ne_of_head_ne (by rw [h16]; exact hn16))]
        · rw [if_neg h16]
          rw [toMap_branch]
          by_cases hn16 : nibAt nk 0 = 16
          · rw [if_pos hn16,
              if_neg (ne_of_head_ne (by rw [hn16]; exact fun hc => h16 hc.symm)),
              toMap_ext_none p c nk
                (by rw [cpl_zero_of_head_ne nk p hnkpos hppos (by rw [hn16]; omega)]
                    omega)]
          · rw [if_neg hn16]
            by_cases hji : nibAt nk 0 = nibAt pk 0
            · rw [hji, getChild_set_self _ _ _
                (by rw [setChild_length]; show nibAt pk 0 < 16
                    have := valid_nibAt_le hpk 0
                    omega)]
              rw [getChild_set_ne _ _ _ _ (fun hc => hne hc.symm),
                getChild_emptyChildren, insertAt_empty, toMap_leaf]
              have hiff := eq_iff_tail nk pk hnkpos hpkpos hji
              by_cases hd : nk.drop 1 = pk.drop 1
              · rw [if_pos hd, if_pos (hiff.mpr hd)]
              · rw [if_neg hd, if_neg (fun hc => hd (hiff.mp hc)),
                  toMap_ext_none p c nk
                    (by rw [cpl_zero_of_head_ne nk p hnkpos hppos
                          (by rw [hji]; exact hne)]
                        omega)]
            · rw [getChild_set_ne _ _ _ _ (fun hc => hji hc.symm),
                toMap_wrap p c hpne hpall nk hn16,
                if_neg (ne_of_head_ne hji)]
      · rw [if_neg hm0]
        by_cases hmp : commonPrefixLen pk p = p.length
        · rw [if_pos hmp]
          rw [toMap_ext]
          by_cases hfull : commonPrefixLen nk p = p.length
          · rw [if_pos hfull]
            have hplt_nk : p.length < nk.length := valid_prefix_lt hnk hpall hfull
            have hplt_pk : p.length < pk.length := valid_prefix_lt hpk hpall hmp
            have hcN : nsize c ≤ N := by
              rw [hextsize] at hN
              omega
            rw [ih c (pk.drop (commonPrefixLen pk p)) v (nk.drop p.length) hcN hwfc
              (valid_drop hpk _ (by omega)) (valid_drop hnk _ hplt_nk)]
            rw [hmp]
            have htk : nk.take p.length = pk.take p.length := by
              rw [commonPrefixLen_full_right nk p hfull,
                commonPrefixLen_full_right pk p hmp]
            have hiff := eq_iff_drop_of_take_eq nk pk p.length htk
            by_cases hd : nk.drop p.length = pk.drop p.length
            · rw [if_pos hd, if_pos (hiff.mpr hd)]
            · rw [if_neg hd, if_neg (fun hc => hd (hiff.mp hc)), toMap_ext,
                if_pos hfull]
          · rw [if_neg hfull]
            have hnkpk : nk ≠ pk := by
              intro hc
              apply hfull
              rw [hc]
              exact hmp
            rw [if_neg hnkpk, toMap_ext_none p c nk hfull]
        · rw [if_neg hmp]
          have hm1 : commonPrefixLen pk p < p.length :=
            lt_of_le_of_ne (commonPrefixLen_le_right pk p) hmp
          have hm2 : commonPrefixLen pk p < pk.length := valid_cpl_lt hpk hpall
          have hmpos : 0 < commonPrefixLen pk p := Nat.pos_of_ne_zero hm0
          have htkpk : pk.take (commonPrefixLen pk p) =
              p.take (commonPrefixLen pk p) := commonPrefixLen_take pk p
          rw [toMap_ext]
          have hlenm : (p.take (commonPrefixLen pk p)).length =
              commonPrefixLen pk p := by
            rw [List.length_take]
            omega
          rw [hlenm]
          by_cases hfull : commonPrefixLen nk (p.take (commonPrefixLen pk p)) =
              commonPrefixLen pk p
          · rw [if_pos hfull]
            have htk : nk.take (commonPrefixLen pk p) =
                p.take (commonPrefixLen pk p) := by
              have h := commonPrefixLen_full_right nk _
                (by rw [hlenm]; exact hfull)
              rw [hlenm] at h
              exact h
            have hmnk : commonPrefixLen pk p < nk.length := by
              have h := valid_prefix_lt hnk
                (fun x hx => hpall x (List.mem_of_mem_take hx))
                (by rw [hlenm]; exact hfull)
              rw [hlenm] at h
              exact h
            have hNi : nsize (Node.ext (p.drop (commonPrefixLen pk p)) c) ≤ N := by
              rw [hextsize] at hN
              have hsz : nsize (Node.ext (p.drop (commonPrefixLen pk p)) c) =
                  1 + (p.drop (commonPrefixLen pk p)).length + nsize c := rfl
              rw [hsz, List.length_drop]
              omega
            have hwfi : wfB (Node.ext (p.drop (commonPrefixLen pk p)) c) = true := by
              refine wfB_ext_intro ?_ ?_ hbr hwfc
              · intro hcon
                have := congrArg List.length hcon
                simp at this
                omega
              · exact fun x hx => hpall x (List.mem_of_mem_drop hx)
            rw [ih (Node.ext (p.drop (commonPrefixLen pk p)) c)
              (pk.drop (commonPrefixLen pk p)) v (nk.drop (commonPrefixLen pk p))
              hNi hwfi (valid_drop hpk _ hm2) (valid_drop hnk _ hmnk)]
            have hiff := eq_iff_drop_of_take_eq nk pk (commonPrefixLen pk p)
              (by rw [htk, htkpk])
            by_cases hd : nk.drop (commonPrefixLen pk p) =
                pk.drop (commonPrefixLen pk p)
            · rw [if_pos hd, if_pos (hiff.mpr hd)]
            · rw [if_neg hd, if_neg (fun hc => hd (hiff.mp hc))]
              rw [toMap_ext, toMap_ext]
              have hdec : commonPrefixLen nk p = commonPrefixLen pk p +
                  commonPrefixLen (nk.drop (commonPrefixLen pk p))
                    (p.drop (commonPrefixLen pk p)) :=
                cpl_decompose (commonPrefixLen pk p) nk p (by rw [htk])
                  (by omega) (by omega)
              have hdlen : (p.drop (commonPrefixLen pk p)).length =
                  p.length - commonPrefixLen pk p := by
                rw [List.length_drop]
              rw [hdlen, hdec]
              by_cases hcc : commonPrefixLen (nk.drop (commonPrefixLen pk p))
                  (p.drop (commonPrefixLen pk p)) =
                  p.length - commonPrefixLen pk p
              · rw [if_pos hcc, if_pos (by omega)]
                have harith : commonPrefixLen pk p +
                    (p.length - commonPrefixLen pk p) = p.length := by omega
                rw [List.drop_drop, harith]
              · rw [if_neg hcc, if_neg (by omega)]
          · rw [if_neg hfull]
            have hnkpk : nk ≠ pk := by
              intro hc
              apply hfull
              rw [hc, ← htkpk]
              exact cpl_take_self pk _ (by omega)
            have hnofull : commonPrefixLen nk p ≠ p.length := by
              intro hcfull
              have h1 : nk.take p.length = p := commonPrefixLen_full_right nk p hcfull
              have hnklen : p.length ≤ nk.length := by
                have := commonPrefixLen_le_left nk p
                omega
              have h2 : nk.take (commonPrefixLen pk p) =
                  p.take (commonPrefixLen pk p) := by
                have h3 : (nk.take p.length).take (commonPrefixLen pk p) =
                    p.take (commonPrefixLen pk p) := by rw [h1]
                rw [List.take_take] at h3
                have hmin : min (commonPrefixLen pk p) p.length =
                    commonPrefixLen pk p := by omega
                rw [hmin] at h3
                exact h3
              apply hfull
              calc commonPrefixLen nk (p.take (commonPrefixLen pk p))
                  = commonPrefixLen nk (nk.take (commonPrefixLen pk p)) := by rw [h2]
                _ = commonPrefixLen pk p := cpl_take_self nk _ (by omega)
            rw [if_neg hnkpk, toMap_ext_none p c nk hnofull]

/-! ### Key extraction from well-formed nodes -/
theorem getChild_cons_zero (x : Node) (xs : List Node) :
    getChild (x :: xs) 0 = x := rfl

theorem getChild_cons_succ (x : Node) (xs : List Node) (i : Nat) :
    getChild (x :: xs) (i + 1) = getChild xs i := rfl

theorem filter_one :
    ∀ (l : List Node), 1 ≤ (l.filter fun n => !isEmptyNode n).length →
      ∃ i, i < l.length ∧ isEmptyNode (getChild l i) = false := by
  intro l
  induction l with
  | nil => intro h; simp at h
  | cons x xs ih =>
    intro h
    by_cases hx : isEmptyNode x = false
    · exact ⟨0, by simp, hx⟩
    · have hx' : isEmptyNode x = true := by
        cases hxx : isEmptyNode x
        · exact absurd hxx hx
        · rfl
      rw [List.filter_cons, if_neg (by simp [hx'])] at h
      obtain ⟨i, hi, hie⟩ := ih h
      refine ⟨i + 1, by simp; omega, ?_⟩
      rw [getChild_cons_succ]
      exact hie

theorem filter_two :
    ∀ (l : List Node), 2 ≤ (l.filter fun n => !isEmptyNode n).length →
      ∃ i j, i < l.length ∧ j < l.length ∧ i ≠ j ∧
        isEmptyNode (getChild l i) = false ∧ isEmptyNode (getChild l j) = false := by
  intro l
  induction l with
  | nil => intro h; simp at h
  | cons x xs ih =>
    intro h
    by_cases hx : isEmptyNode x = false
    · rw [List.filter_cons, if_pos (by simp [hx])] at h
      simp only [List.length_cons] at h
      obtain ⟨i, hi, hie⟩ := filter_one xs (by omega)
      refine ⟨0, i + 1, by simp, by simp; omega, by omega, hx, ?_⟩
      rw [getChild_cons_succ]
      exact hie
    · have hx' : isEmptyNode x = true := by
        cases hxx : isEmptyNode x
        · exact absurd hxx hx
        · rfl
      rw [List.filter_cons, if_neg (by simp [hx'])] at h
      obtain ⟨i, j, hi, hj, hij, hie, hje⟩ := ih h
      refine ⟨i + 1, j + 1, by simp; omega, by simp; omega, by omega, ?_, ?_⟩
      · rw [getChild_cons_succ]
        exact hie
      · rw [getChild_cons_succ]
        exact hje

theorem valid_append (p w : List Nat) (hp : ∀ x ∈ p, x < 16)
    (hw : isValidPath w = true) : isValidPath (p ++ w) = true := by
  rw [isValidPath_iff] at hw ⊢
  obtain ⟨rem, rfl, hrem⟩ := hw
  exact ⟨p ++ rem, by simp, fun x hx =>
    (List.mem_append.mp hx).elim (hp x) (hrem x)⟩

theorem valid_cons_intro (i : Nat) (w : List Nat) (hi : i < 16)
    (hw : isValidPath w = true) : isValidPath (i :: w) = true :=
  valid_append [i] w (by intro x hx; simp at hx; omega) hw

theorem valid_sixteen : isValidPath [16] = true := by decide

theorem toMap_ext_append (p : List Nat) (c : Node) (w : List Nat) :
    toMap (.ext p c) (p ++ w) = toMap c w := by
  rw [toMap_ext, if_pos (commonPrefixLen_refl_append p w)]
  congr 1
  exact List.drop_left p w

theorem toMap_branch_cons (ch : List Node) (val : Option (List Nat))
    (i : Nat) (w : List Nat) (hi : i ≠ 16) :
    toMap (.branch ch val) (i :: w) = toMap (getChild ch i) w := by
  rw [toMap_branch]
  have h : nibAt (i :: w) 0 = i := rfl
  rw [h, if_neg hi]
  rfl

theorem toMap_branch_sixteen (ch : List Node) (val : Option (List Nat)) :
    toMap (.branch ch val) [16] = val := by
  rw [toMap_branch, if_pos (show nibAt [16] 0 = 16 from rfl)]

/-- Every represented key of a well-formed non-empty node: existence. -/
theorem nonemptyMap :
    ∀ (N : Nat) (t : Node), nsize t ≤ N → wfB t = true → t ≠ .empty →
      ∃ nk, isValidPath nk = true ∧ (toMap t nk).isSome = true := by
  intro N
  induction N with
  | zero =>
    intro t hN
    have := nsize_pos t
    omega
  | succ N ih =>
    intro t hN hwf hne
    cases t with
    | empty => exact absurd rfl hne
    | leaf k v =>
      exact ⟨k, hwf, by rw [toMap_leaf, if_pos rfl]; rfl⟩
    | ext p c =>
      obtain ⟨hpne, hpall, hbr, hwfc⟩ := wfB_ext_parts hwf
      have hcne : c ≠ .empty := (isEmptyNode_false_iff c).mp (isBranchNode_not_empty hbr)
      have hNc : nsize c ≤ N := by
        have hsz : nsize (Node.ext p c) = 1 + p.length + nsize c := rfl
        rw [hsz] at hN
        omega
      obtain ⟨w, hwv, hws⟩ := ih c hNc hwfc hcne
      refine ⟨p ++ w, valid_append p w hpall hwv, ?_⟩
      rw [toMap_ext_append]
      exact hws
    | branch ch val =>
      obtain ⟨hlen, hwfl, hocc⟩ := wfB_branch_parts hwf
      cases val with
      | some v =>
        exact ⟨[16], valid_sixteen, by rw [toMap_branch_sixteen]; rfl⟩
      | none =>
        have hc1 : 1 ≤ (ch.filter fun n => !isEmptyNode n).length := by
          unfold occupiedCount at hocc
          simp only [Option.isSome_none, Bool.false_eq_true, if_false] at hocc
          omega
        obtain ⟨i, hi, hiem⟩ := filter_one ch hc1
        have hNc : nsize (getChild ch i) ≤ N := by
          have h1 := nsize_getChild_lt ch i (none : Option (List Nat))
          simp only [nsize] at h1 hN
          omega
        obtain ⟨w, hwv, hws⟩ := ih (getChild ch i) hNc (wfB_getChild ch i hwfl)
          ((isEmptyNode_false_iff _).mp hiem)
        have hi16 : i < 16 := by
          rw [hlen] at hi
          exact hi
        refine ⟨i :: w, valid_cons_intro i w hi16 hwv, ?_⟩
        rw [toMap_branch_cons ch none i w (by omega)]
        exact hws

/-- A well-formed branch represents two keys that differ already in their
first nibble. -/
theorem twoKeysBranch (ch : List Node) (val : Option (List Nat))
    (hwf : wfB (.branch ch val) = true) :
    ∃ nk1 nk2, isValidPath nk1 = true ∧ isValidPath nk2 = true ∧
      (toMap (.branch ch val) nk1).isSome = true ∧
      (toMap (.branch ch val) nk2).isSome = true ∧
      nibAt nk1 0 ≠ nibAt nk2 0 := by
  obtain ⟨hlen, hwfl, hocc⟩ := wfB_branch_parts hwf
  cases val with
  | some v =>
    have hc1 : 1 ≤ (ch.filter fun n => !isEmptyNode n).length := by
      unfold occupiedCount at hocc
      simp only [Option.isSome_some, if_pos] at hocc
      omega
    obtain ⟨i, hi, hiem⟩ := filter_one ch hc1
    have hi16 : i < 16 := by
      rw [hlen] at hi
      exact hi
    obtain ⟨w, hwv, hws⟩ := nonemptyMap (nsize (getChild ch i)) (getChild ch i)
      le_rfl (wfB_getChild ch i hwfl) ((isEmptyNode_false_iff _).mp hiem)
    refine ⟨[16], i :: w, valid_sixteen, valid_cons_intro i w hi16 hwv, ?_, ?_, ?_⟩
    · rw [toMap_branch_sixteen]
      rfl
    · rw [toMap_branch_cons ch (some v) i w (by omega)]
      exact hws
    · show (16 : Nat) ≠ nibAt (i :: w) 0
      have h : nibAt (i :: w) 0 = i := rfl
      rw [h]
      omega
  | none =>
    have hc2 : 2 ≤ (ch.filter fun n => !isEmptyNode n).length := by
      unfold occupiedCount at hocc
      simp only [Option.isSome_none, Bool.false_eq_true, if_false] at hocc
      omega
    obtain ⟨i, j, hi, hj, hij, hiem, hjem⟩ := filter_two ch hc2
    have hi16 : i < 16 := by
      rw [hlen] at hi
      exact hi
    have hj16 : j < 16 := by
      rw [hlen] at hj
      exact hj
    obtain ⟨w1, hw1v, hw1s⟩ := nonemptyMap (nsize (getChild ch i)) (getChild ch i)
      le_rfl (wfB_getChild ch i hwfl) ((isEmptyNode_false_iff _).mp hiem)
    obtain ⟨w2, hw2v, hw2s⟩ := nonemptyMap (nsize (getChild ch j)) (getChild ch j)
      le_rfl (wfB_getChild ch j hwfl) ((isEmptyNode_false_iff _).mp hjem)
    refine ⟨i :: w1, j :: w2, valid_cons_intro i w1 hi16 hw1v,
      valid_cons_intro j w2 hj16 hw2v, ?_, ?_, ?_⟩
    · rw [toMap_branch_cons ch none i w1 (by omega)]
      exact hw1s
    · rw [toMap_branch_cons ch none j w2 (by omega)]
      exact hw2s
    · show i ≠ j
      exact hij

/-! ### Canonicity: the represented map determines the well-formed tree -/
theorem leaf_key_eq (k v nk : List Nat)
    (h : (toMap (.leaf k v) nk).isSome = true) : nk = k := by
  rw [toMap_leaf] at h
  by_cases hc : nk = k
  · exact hc
  · rw [if_neg hc] at h
    simp at h

theorem ext_key_prefix (p : List Nat) (c : Node) (nk : List Nat)
    (h : (toMap (.ext p c) nk).isSome = true) : nk.take p.length = p := by
  rw [toMap_ext] at h
  by_cases hc : commonPrefixLen nk p = p.length
  · exact commonPrefixLen_full_right nk p hc
  · rw [if_neg hc] at h
    simp at h

theorem nibAt_take : ∀ (a : List Nat) (n m : Nat), m < n →
    nibAt (a.take n) m = nibAt a m := by
  intro a
  induction a with
  | nil =>
    intro n m _
    cases n <;> rfl
  | cons x xs ih =>
    intro n m hm
    cases n with
    | zero => omega
    | succ n =>
      cases m with
      | zero => rfl
      | succ m =>
        show nibAt (xs.take n) m = nibAt xs m
        exact ih n m (by omega)

theorem take_eq_nibAt (a b : List Nat) (n : Nat) (h : a.take n = b.take n)
    (m : Nat) (hm : m < n) : nibAt a m = nibAt b m := by
  rw [← nibAt_take a n m hm, ← nibAt_take b n m hm, h]

theorem nibAt_append_length : ∀ (p w : List Nat),
    nibAt (p ++ w) p.length = nibAt w 0 := by
  intro p
  induction p with
  | nil => intro w; rfl
  | cons x xs ih =>
    intro w
    show nibAt (xs ++ w) xs.length = nibAt w 0
    exact ih w

theorem ext_key_head (p : List Nat) (c : Node) (nk : List Nat) (hp : 0 < p.length)
    (h : (toMap (.ext p c) nk).isSome = true) : nibAt nk 0 = nibAt p 0 := by
  have htake := ext_key_prefix p c nk h
  have h0 : nibAt (nk.take p.length) 0 = nibAt nk 0 := nibAt_take nk p.length 0 hp
  rw [← h0, htake]

theorem getChild_eq_getElem (ch : List Node) (i : Nat) (hi : i < ch.length) :
    getChild ch i = ch[i] := by
  unfold getChild
  rw [List.getD_eq_getElem?_getD, List.getElem?_eq_getElem hi]
  rfl

theorem canon_empty (t : Node) (hwf : wfB t = true)
    (h : ∀ nk, isValidPath nk = true → toMap t nk = none) : t = .empty := by
  by_cases ht : t = .empty
  · exact ht
  · exfalso
    obtain ⟨nk, hv, hs⟩ := nonemptyMap (nsize t) t le_rfl hwf ht
    rw [h nk hv] at hs
    simp at hs

/-- Two well-formed trees with the same represented map are equal. -/
theorem canonB :
    ∀ (N : Nat) (t1 t2 : Node), nsize t1 + nsize t2 ≤ N →
      wfB t1 = true → wfB t2 = true →
      (∀ nk, isValidPath nk = true → toMap t1 nk = toMap t2 nk) → t1 = t2 := by
  intro N
  induction N with
  | zero =>
    intro t1 t2 hN
    have := nsize_pos t1
    have := nsize_pos t2
    omega
  | succ N ih =>
    intro t1 t2 hN hwf1 hwf2 h
    cases t1 with
    | empty =>
      exact (canon_empty t2 hwf2 (fun nk hv => by rw [← h nk hv, toMap_empty])).symm
    | leaf k1 v1 =>
      cases t2 with
      | empty =>
        exact canon_empty (.leaf k1 v1) hwf1
          (fun nk hv => by rw [h nk hv, toMap_empty])
      | leaf k2 v2 =>
        have h1 := h k1 hwf1
        rw [toMap_leaf, toMap_leaf, if_pos rfl] at h1
        by_cases hk : k1 = k2
        · rw [if_pos hk] at h1
          rw [hk, Option.some.inj h1]
        · rw [if_neg hk] at h1
          cases h1
      | ext p c =>
        exfalso
        obtain ⟨hpne, hpall, hbr, hwfc⟩ := wfB_ext_parts hwf2
        cases c with
        | branch bch bval =>
          obtain ⟨w1, w2, hw1v, hw2v, hw1s, hw2s, hwne⟩ := twoKeysBranch bch bval hwfc
          have hk1 : p ++ w1 = k1 := by
            refine leaf_key_eq k1 v1 (p ++ w1) ?_
            rw [h (p ++ w1) (valid_append p w1 hpall hw1v), toMap_ext_append]
            exact hw1s
          have hk2 : p ++ w2 = k1 := by
            refine leaf_key_eq k1 v1 (p ++ w2) ?_
            rw [h (p ++ w2) (valid_append p w2 hpall hw2v), toMap_ext_append]
            exact hw2s
          have hww : w1 = w2 := List.append_cancel_left (hk1.trans hk2.symm)
          exact hwne (by rw [hww])
        | empty => simp [isBranchNode] at hbr
        | leaf a b => simp [isBranchNode] at hbr
        | ext a b => simp [isBranchNode] at hbr
      | branch ch val =>
        exfalso
        obtain ⟨nk1, nk2, hv1, hv2, hs1, hs2, hne⟩ := twoKeysBranch ch val hwf2
        have hk1 : nk1 = k1 := by
          refine leaf_key_eq k1 v1 nk1 ?_
          rw [h nk1 hv1]
          exact hs1
        have hk2 : nk2 = k1 := by
          refine leaf_key_eq k1 v1 nk2 ?_
          rw [h nk2 hv2]
          exact hs2
        exact hne (by rw [hk1, hk2])
    | ext p1 c1 =>
      cases t2 with
      | empty =>
        exact canon_empty (.ext p1 c1) hwf1
          (fun nk hv => by rw [h nk hv, toMap_empty])
      | leaf k2 v2 =>
        exfalso
        obtain ⟨hpne, hpall, hbr, hwfc⟩ := wfB_ext_parts hwf1
        cases c1 with
        | branch bch bval =>
          obtain ⟨w1, w2, hw1v, hw2v, hw1s, hw2s, hwne⟩ := twoKeysBranch bch bval hwfc
          have hk1 : p1 ++ w1 = k2 := by
            refine leaf_key_eq k2 v2 (p1 ++ w1) ?_
            rw [← h (p1 ++ w1) (valid_append p1 w1 hpall hw1v), toMap_ext_append]
            exact hw1s
          have hk2 : p1 ++ w2 = k2 := by
            refine leaf_key_eq k2 v2 (p1 ++ w2) ?_
            rw [← h (p1 ++ w2) (valid_append p1 w2 hpall hw2v), toMap_ext_append]
            exact hw2s
          have hww : w1 = w2 := List.append_cancel_left (hk1.trans hk2.symm)
          exact hwne (by rw [hww])
        | empty => simp [isBranchNode] at hbr
        | leaf a b => simp [isBranchNode] at hbr
        | ext a b => simp [isBranchNode] at hbr
      | ext p2 c2 =>
        obtain ⟨hp1ne, hp1all, hbr1, hwfc1⟩ := wfB_ext_parts hwf1
        obtain ⟨hp2ne, hp2all, hbr2, hwfc2⟩ := wfB_ext_parts hwf2
        have hp1pos : 0 < p1.length := List.length_pos.mpr hp1ne
        have hp2pos : 0 < p2.length := List.length_pos.mpr hp2ne
        have hpp : p1 = p2 := by
          cases c1 with
          | branch bch1 bval1 =>
            cases c2 with
            | branch bch2 bval2 =>
              obtain ⟨w1, w2, hw1v, hw2v, hw1s, hw2s, hwne⟩ :=
                twoKeysBranch bch1 bval1 hwfc1
              obtain ⟨u1, u2, hu1v, hu2v, hu1s, hu2s, hune⟩ :=
                twoKeysBranch bch2 bval2 hwfc2
              have hA1s : (toMap (.ext p2 (.branch bch2 bval2))
                  (p1 ++ w1)).isSome = true := by
                rw [← h (p1 ++ w1) (valid_append p1 w1 hp1all hw1v),
                  toMap_ext_append]
                exact hw1s
              have hA2s : (toMap (.ext p2 (.branch bch2 bval2))
                  (p1 ++ w2)).isSome = true := by
                rw [← h (p1 ++ w2) (valid_append p1 w2 hp1all hw2v),
                  toMap_ext_append]
                exact hw2s
              have hB1s : (toMap (.ext p1 (.branch bch1 bval1))
                  (p2 ++ u1)).isSome = true := by
                rw [h (p2 ++ u1) (valid_append p2 u1 hp2all hu1v),
                  toMap_ext_append]
                exact hu1s
              have hB2s : (toMap (.ext p1 (.branch bch1 bval1))
                  (p2 ++ u2)).isSome = true := by
                rw [h (p2 ++ u2) (valid_append p2 u2 hp2all hu2v),
                  toMap_ext_append]
                exact hu2s
              have hA1p := ext_key_prefix _ _ _ hA1s
              have hA2p := ext_key_prefix _ _ _ hA2s
              have hB1p := ext_key_prefix _ _ _ hB1s
              have hB2p := ext_key_prefix _ _ _ hB2s
              rcases Nat.lt_trichotomy p1.length p2.length with hlt | heq | hgt
              · exfalso
                have hd : nibAt (p1 ++ w1) p1.length = nibAt (p1 ++ w2) p1.length :=
                  take_eq_nibAt _ _ p2.length (by rw [hA1p, hA2p]) p1.length hlt
                rw [nibAt_append_length, nibAt_append_length] at hd
                exact hwne hd
              · have hthis := hA1p
                rw [← heq, List.take_left] at hthis
                exact hthis
              · exfalso
                have hd : nibAt (p2 ++ u1) p2.length = nibAt (p2 ++ u2) p2.length :=
                  take_eq_nibAt _ _ p1.length (by rw [hB1p, hB2p]) p2.length hgt
                rw [nibAt_append_length, nibAt_append_length] at hd
                exact hune hd
            | empty => simp [isBranchNode] at hbr2
            | leaf a b => simp [isBranchNode] at hbr2
            | ext a b => simp [isBranchNode] at hbr2
          | empty => simp [isBranchNode] at hbr1
          | leaf a b => simp [isBranchNode] at hbr1
          | ext a b => simp [isBranchNode] at hbr1
        subst hpp
        have hcc : c1 = c2 := by
          refine ih c1 c2 ?_ hwfc1 hwfc2 ?_
          · have hs1 : nsize (Node.ext p1 c1) = 1 + p1.length + nsize c1 := rfl
            have hs2 : nsize (Node.ext p1 c2) = 1 + p1.length + nsize c2 := rfl
            rw [hs1, hs2] at hN
            omega
          · intro w hv
            have hh := h (p1 ++ w) (valid_append p1 w hp1all hv)
            rw [toMap_ext_append, toMap_ext_append] at hh
            exact hh
        rw [hcc]
      | branch ch2 val2 =>
        exfalso
        obtain ⟨hpne, hpall, hbr, hwfc⟩ := wfB_ext_parts hwf1
        have hppos : 0 < p1.length := List.length_pos.mpr hpne
        obtain ⟨nk1, nk2, hv1, hv2, hs1, hs2, hne⟩ := twoKeysBranch ch2 val2 hwf2
        have hh1 : (toMap (.ext p1 c1) nk1).isSome = true := by
          rw [h nk1 hv1]
          exact hs1
        have hh2 : (toMap (.ext p1 c1) nk2).isSome = true := by
          rw [h nk2 hv2]
          exact hs2
        have he1 := ext_key_head p1 c1 nk1 hppos hh1
        have he2 := ext_key_head p1 c1 nk2 hppos hh2
        exact hne (he1.trans he2.symm)
    | branch ch1 val1 =>
      cases t2 with
      | empty =>
        exact canon_empty (.branch ch1 val1) hwf1
          (fun nk hv => by rw [h nk hv, toMap_empty])
      | leaf k2 v2 =>
        exfalso
        obtain ⟨nk1, nk2, hv1, hv2, hs1, hs2, hne⟩ := twoKeysBranch ch1 val1 hwf1
        have hk1 : nk1 = k2 := by
          refine leaf_key_eq k2 v2 nk1 ?_
          rw [← h nk1 hv1]
          exact hs1
        have hk2 : nk2 = k2 := by
          refine leaf_key_eq k2 v2 nk2 ?_
          rw [← h nk2 hv2]
          exact hs2
        exact hne (by rw [hk1, hk2])
      | ext p2 c2 =>
        exfalso
        obtain ⟨hpne, hpall, hbr, hwfc⟩ := wfB_ext_parts hwf2
        have hppos : 0 < p2.length := List.length_pos.mpr hpne
        obtain ⟨nk1, nk2, hv1, hv2, hs1, hs2, hne⟩ := twoKeysBranch ch1 val1 hwf1
        have hh1 : (toMap (.ext p2 c2) nk1).isSome = true := by
          rw [← h nk1 hv1]
          exact hs1
        have hh2 : (toMap (.ext p2 c2) nk2).isSome = true := by
          rw [← h nk2 hv2]
          exact hs2
        have he1 := ext_key_head p2 c2 nk1 hppos hh1
        have he2 := ext_key_head p2 c2 nk2 hppos hh2
        exact hne (he1.trans he2.symm)
      | branch ch2 val2 =>
        obtain ⟨hlen1, hwfl1, hocc1⟩ := wfB_branch_parts hwf1
        obtain ⟨hlen2, hwfl2, hocc2⟩ := wfB_branch_parts hwf2
        have hvv : val1 = val2 := by
          have hh := h [16] valid_sixteen
          rw [toMap_branch_sixteen, toMap_branch_sixteen] at hh
          exact hh
        have hchild : ∀ i, i < 16 → getChild ch1 i = getChild ch2 i := by
          intro i hi
          refine ih (getChild ch1 i) (getChild ch2 i) ?_ (wfB_getChild ch1 i hwfl1)
            (wfB_getChild ch2 i hwfl2) ?_
          · have h1 := nsize_getChild_lt ch1 i val1
            have h2 := nsize_getChild_lt ch2 i val2
            simp only [nsize] at h1 h2 hN
            omega
          · intro w hv
            have hh := h (i :: w) (valid_cons_intro i w hi hv)
            rw [toMap_branch_cons ch1 val1 i w (by omega),
              toMap_branch_cons ch2 val2 i w (by omega)] at hh
            exact hh
        have hch : ch1 = ch2 := by
          apply List.ext_getElem (by rw [hlen1, hlen2])
          intro i hi1 hi2
          have hgi := hchild i (by rw [hlen1] at hi1; exact hi1)
          rw [getChild_eq_getElem ch1 i hi1, getChild_eq_getElem ch2 i hi2] at hgi
          exact hgi
        rw [hvv, hch]

/-! ### Insertion folds and permutation invariance -/
theorem from_raw_cons (b : Nat) (rest : List Nat) :
    from_raw (b :: rest) true = b / 16 :: b % 16 :: from_raw rest true := by
  simp [from_raw]

theorem from_raw_length (k : List Nat) :
    (from_raw k true).length = 2 * k.length + 1 := by
  induction k with
  | nil => rfl
  | cons b rest ih =>
    rw [from_raw_cons, List.length_cons, List.length_cons, ih, List.length_cons]
    omega

theorem from_raw_inj : ∀ (k1 k2 : List Nat),
    from_raw k1 true = from_raw k2 true → k1 = k2 := by
  intro k1
  induction k1 with
  | nil =>
    intro k2 h
    cases k2 with
    | nil => rfl
    | cons b rest =>
      exfalso
      have hl := congrArg List.length h
      rw [from_raw_length, from_raw_length] at hl
      simp at hl
  | cons a k1 ih =>
    intro k2 h
    cases k2 with
    | nil =>
      exfalso
      have hl := congrArg List.length h
      rw [from_raw_length, from_raw_length] at hl
      simp at hl
    | cons b rest =>
      rw [from_raw_cons, from_raw_cons] at h
      injection h with h1 h
      injection h with h2 h3
      have hab : a = b := by omega
      rw [hab, ih rest h3]

theorem wfB_foldl :
    ∀ (pairs : List (List Nat × List Nat)) (t : Node), wfB t = true →
      (∀ kv ∈ pairs, ∀ b ∈ kv.1, b < 256) →
      wfB (pairs.foldl (fun t kv => trieInsert t kv.1 kv.2) t) = true := by
  intro pairs
  induction pairs with
  | nil => intro t hwf _; exact hwf
  | cons kv rest ih =>
    intro t hwf hb
    simp only [List.foldl_cons]
    refine ih (trieInsert t kv.1 kv.2) ?_
      (fun kv' h => hb kv' (List.mem_cons_of_mem _ h))
    exact insertAt_wf (nsize t) t _ _ le_rfl hwf
      (isValidPath_from_raw _ (hb kv (List.mem_cons_self _ _)))

theorem toMap_foldl :
    ∀ (pairs : List (List Nat × List Nat)) (t : Node) (nk : List Nat),
      wfB t = true → (∀ kv ∈ pairs, ∀ b ∈ kv.1, b < 256) →
      isValidPath nk = true →
      toMap (pairs.foldl (fun t kv => trieInsert t kv.1 kv.2) t) nk =
        pairs.foldl (insStep nk) (toMap t nk) := by
  intro pairs
  induction pairs with
  | nil => intro t nk _ _ _; rfl
  | cons kv rest ih =>
    intro t nk hwf hb hnk
    simp only [List.foldl_cons]
    have hkv := isValidPath_from_raw kv.1 (hb kv (List.mem_cons_self _ _))
    rw [ih (trieInsert t kv.1 kv.2) nk
      (insertAt_wf (nsize t) t _ _ le_rfl hwf hkv)
      (fun kv' h => hb kv' (List.mem_cons_of_mem _ h)) hnk]
    congr 1
    show toMap (insertAt t (from_raw kv.1 true) kv.2) nk = _
    rw [insertAt_toMap (nsize t) t (from_raw kv.1 true) kv.2 nk le_rfl hwf hkv hnk]
    rfl

theorem foldl_insStep_perm :
    ∀ {l1 l2 : List (List Nat × List Nat)}, l1.Perm l2 →
      (l1.map Prod.fst).Nodup → ∀ (nk : List Nat) (acc : Option (List Nat)),
      l1.foldl (insStep nk) acc = l2.foldl (insStep nk) acc := by
  intro l1 l2 hperm
  induction hperm with
  | nil => intro _ nk acc; rfl
  | cons x hp ih =>
    intro hnodup nk acc
    simp only [List.foldl_cons]
    refine ih ?_ nk (insStep nk acc x)
    rw [List.map_cons, List.nodup_cons] at hnodup
    exact hnodup.2
  | swap x y l =>
    intro hnodup nk acc
    simp only [List.foldl_cons]
    have hxy : y.1 ≠ x.1 := by
      rw [List.map_cons, List.map_cons, List.nodup_cons] at hnodup
      exact fun hc => hnodup.1 (by rw [hc]; exact List.mem_cons_self _ _)
    have hcomm : insStep nk (insStep nk acc y) x = insStep nk (insStep nk acc x) y := by
      unfold insStep
      by_cases h1 : nk = from_raw x.1 true
      · by_cases h2 : nk = from_raw y.1 true
        · exact absurd (from_raw_inj y.1 x.1 (by rw [← h2, h1])) hxy
        · rw [if_pos h1, if_neg h2, if_pos h1]
      · by_cases h2 : nk = from_raw y.1 true
        · rw [if_neg h1, if_pos h2, if_pos h2]
        · rw [if_neg h1, if_neg h2, if_neg h2, if_neg h1]
    rw [hcomm]
  | trans h12 h23 ih12 ih23 =>
    intro hnodup nk acc
    rw [ih12 hnodup nk acc,
      ih23 (((h12.map Prod.fst).nodup_iff).mp hnodup) nk acc]

/-- C1 (amended): proof round-trip in the form the code satisfies.  For
every list of (key, value) byte pairs inserted into a fresh trie and every
proving key on which merkle_proof actually returns a proof and whose walk
ends at a leaf, folding the proof frames backward from the reconstructed
leaf, as merkle_root does, recomputes exactly the trie's root hash. -/
theorem C1_round_trip (pairs : List (List Nat × List Nat)) (k : List Nat)
    (pf : MerkleProof) (value : List Nat)
    (hbytes : ∀ kv ∈ pairs, ∀ b ∈ kv.1, b < 256)
    (hk : ∀ b ∈ k, b < 256)
    (hpf : merkle_proof (insertList pairs) k = some pf)
    (hval : lookupLeaf (insertList pairs) (from_raw k true) = some value) :
    merkle_root pf value = rootHash (insertList pairs) := by
  have hwf : wfB (insertList pairs) = true := wfB_foldl pairs .empty rfl hbytes
  have hvalid : isValidPath (from_raw k true) = true := isValidPath_from_raw k hk
  unfold merkle_proof at hpf
  rcases hwp : walkProof (insertList pairs) (from_raw k true) with _ | fs
  · rw [hwp] at hpf
    cases hpf
  · rw [hwp] at hpf
    have hpfe : pf = ⟨fs, k⟩ := by
      cases hpf
      rfl
    subst hpfe
    unfold merkle_root rootHash
    show fs.foldr foldStep
        (pad32 (rlp_node (leafRaw
          (encode_path_leaf (stripFrames fs (from_raw k false)) true) value))) =
      pad32 (encodeNode (insertList pairs))
    rw [from_raw_false_dropLast]
    exact roundTripAux (nsize (insertList pairs)) (insertList pairs)
      (from_raw k true) value fs le_rfl hwf hvalid hval hwp

/-- Witness for C1: a two-key trie, proving the first key. -/
theorem C1_witness :
    merkle_root
        ((merkle_proof (insertList [([0x12], [0x01]), ([0x34], [0x02])])
          [0x12]).getD ⟨[], []⟩)
        ((lookupLeaf (insertList [([0x12], [0x01]), ([0x34], [0x02])])
          (from_raw [0x12] true)).getD []) =
      rootHash (insertList [([0x12], [0x01]), ([0x34], [0x02])]) :=
  C1_round_trip [([0x12], [0x01]), ([0x34], [0x02])] [0x12] _ _
    (by decide) (by decide) (by decide) (by decide)

/-- C1 counterexample to the claim as stated: the key 0x12 was inserted
(and the trie still stores its value, at a branch value slot), yet
merkle_proof returns no proof for it — the walk hits the branch's value
slot, where the Rust code indexes children[16] and panics. -/
theorem C1_counterexample :
    merkle_proof (insertList [([0x12], [0x01]), ([0x12, 0x05], [0x02])])
        [0x12] = none ∧
      (toMap (insertList [([0x12], [0x01]), ([0x12, 0x05], [0x02])])
        (from_raw [0x12] true)).isSome = true := by
  exact ⟨by decide, by decide⟩

/-- C2: root determinism.  Inserting any permutation of a list of pairs
with distinct keys into a fresh trie yields the same tree, hence the same
encode_node output. -/
theorem C2_root_determinism (pairs1 pairs2 : List (List Nat × List Nat))
    (hperm : pairs1.Perm pairs2)
    (hnodup : (pairs1.map Prod.fst).Nodup)
    (hbytes : ∀ kv ∈ pairs1, ∀ b ∈ kv.1, b < 256) :
    insertList pairs1 = insertList pairs2 ∧
      encodeNode (insertList pairs1) = encodeNode (insertList pairs2) := by
  have hbytes2 : ∀ kv ∈ pairs2, ∀ b ∈ kv.1, b < 256 := fun kv hkv =>
    hbytes kv (hperm.mem_iff.mpr hkv)
  have hwf1 : wfB (insertList pairs1) = true := wfB_foldl pairs1 .empty rfl hbytes
  have hwf2 : wfB (insertList pairs2) = true := wfB_foldl pairs2 .empty rfl hbytes2
  have hmap : ∀ nk, isValidPath nk = true →
      toMap (insertList pairs1) nk = toMap (insertList pairs2) nk := by
    intro nk hnk
    unfold insertList
    rw [toMap_foldl pairs1 .empty nk rfl hbytes hnk,
      toMap_foldl pairs2 .empty nk rfl hbytes2 hnk]
    exact foldl_insStep_perm hperm hnodup nk (toMap .empty nk)
  have heq : insertList pairs1 = insertList pairs2 :=
    canonB (nsize (insertList pairs1) + nsize (insertList pairs2)) _ _ le_rfl
      hwf1 hwf2 hmap
  exact ⟨heq, by rw [heq]⟩

/-- Witness for C2: two pairs inserted in both orders. -/
theorem C2_witness :
    (([([0x12], [0x01]), ([0x34], [0x02])] :
        List (List Nat × List Nat)).map Prod.fst).Nodup ∧
      insertList [([0x12], [0x01]), ([0x34], [0x02])] =
        insertList [([0x34], [0x02]), ([0x12], [0x01])] :=
  ⟨by decide,
    (C2_root_determinism [([0x12], [0x01]), ([0x34], [0x02])]
      [([0x34], [0x02]), ([0x12], [0x01])]
      (List.Perm.swap ([0x34], [0x02]) ([0x12], [0x01]) [])
      (by decide) (by decide)).1⟩

/-- C6: BranchNode::length() does not return the number of bytes encode()
emits.  With one occupied slot and no value the raw list is 50 bytes, so
encode() passes it through rlp_node and emits its 32-byte keccak, while
length() still answers 50. -/
theorem C6_branch_length_code_bug :
    (branchNodeEncode (some (List.replicate 32 0) :: List.replicate 15 none)
      none).length = 32 ∧
      branchNodeLength (some (List.replicate 32 0) :: List.replicate 15 none) =
        50 := by
  exact ⟨by decide, by decide⟩

/-- C9: the empty trie encodes as the single EMPTY_STRING_CODE byte, whose
keccak is the canonical empty-trie root constant. -/
theorem C9_empty_trie_root :
    encodeNode .empty = [0x80] ∧
      keccak256 (encodeNode .empty) =
        [0x56, 0xe8, 0x1f, 0x17, 0x1b, 0xcc, 0x55, 0xa6, 0xff, 0x83, 0x45, 0xe6,
         0x92, 0xc0, 0xf8, 0x6e, 0x5b, 0x48, 0xe0, 0x1b, 0x99, 0x6c, 0xad, 0xc0,
         0x01, 0x62, 0x2f, 0xb5, 0xe3, 0x63, 0xb4, 0x21] := by
  exact ⟨by decide, by decide⟩

/-- C10: H256::from_slice zero-pads any slice of at most 32 bytes to the
right and rejects (panics on) longer slices; hence a proof node whose RLP
is shorter than 32 bytes contributes that inline RLP right-padded with
zeros, not its keccak. -/
theorem C10_from_slice_padding (s : List Nat) :
    (s.length ≤ 32 →
      from_slice s = some (s ++ List.replicate (32 - s.length) 0)) ∧
    (32 < s.length → from_slice s = none) ∧
    (s.length < 32 →
      from_slice (rlp_node s) = some (s ++ List.replicate (32 - s.length) 0)) := by
  refine ⟨?_, ?_, ?_⟩
  · intro h
    unfold from_slice
    rw [if_pos h]
  · intro h
    unfold from_slice
    rw [if_neg (by omega)]
  · intro h
    unfold rlp_node
    rw [if_pos h]
    unfold from_slice
    rw [if_pos (by omega)]

/-- Witness for C10: a 1-byte slice is padded with 31 zeros, a 33-byte
slice is rejected, and a short node RLP stays inline. -/
theorem C10_witness :
    (([0xab] : List Nat).length ≤ 32 ∧
      from_slice [0xab] = some ([0xab] ++ List.replicate (32 - [0xab].length) 0)) ∧
    (32 < (List.replicate 33 (0 : Nat)).length ∧
      from_slice (List.replicate 33 (0 : Nat)) = none) ∧
    (([0xc3, 0x01, 0x02] : List Nat).length < 32 ∧
      from_slice (rlp_node [0xc3, 0x01, 0x02]) =
        some ([0xc3, 0x01, 0x02] ++
          List.replicate (32 - [0xc3, 0x01, 0x02].length) 0)) :=
  ⟨⟨by decide, (C10_from_slice_padding [0xab]).1 (by decide)⟩,
   ⟨by decide, (C10_from_slice_padding (List.replicate 33 0)).2.1 (by decide)⟩,
   ⟨by decide, (C10_from_slice_padding [0xc3, 0x01, 0x02]).2.2 (by decide)⟩⟩

/-- C3: validate() fails with IncorrectBodyHash exactly when the block
hash mismatches; otherwise with IncorrectReceiptHash when the receipt
hash mismatches; otherwise with IncorrectReceiptRoot when the recomputed
root differs from the header's receipts_root; and otherwise accepts.  The
result type admits no other error kind, and validate is a pure total
function of its argument. -/
theorem C3_validate_cascade (p : EventProof) :
    (p.block_hash ≠ blockHeaderHash p.block_header →
      validate p = .error (.IncorrectBodyHash p.block_hash
        (blockHeaderHash p.block_header))) ∧
    (p.block_hash = blockHeaderHash p.block_header →
      p.transaction_receipt_hash ≠ transactionReceiptHash p.transaction_receipt →
      validate p = .error (.IncorrectReceiptHash p.transaction_receipt_hash
        (transactionReceiptHash p.transaction_receipt))) ∧
    (p.block_hash = blockHeaderHash p.block_header →
      p.transaction_receipt_hash = transactionReceiptHash p.transaction_receipt →
      p.block_header.receipts_root ≠
        merkle_root p.merkle_proof_of_receipt
          (transactionReceiptEncode p.transaction_receipt) →
      validate p = .error (.IncorrectReceiptRoot p.block_header.receipts_root
        (merkle_root p.merkle_proof_of_receipt
          (transactionReceiptEncode p.transaction_receipt)))) ∧
    (p.block_hash = blockHeaderHash p.block_header →
      p.transaction_receipt_hash = transactionReceiptHash p.transaction_receipt →
      p.block_header.receipts_root =
        merkle_root p.merkle_proof_of_receipt
          (transactionReceiptEncode p.transaction_receipt) →
      validate p = .ok ()) := by
  refine ⟨?_, ?_, ?_, ?_⟩
  · intro h1
    unfold validate
    rw [if_pos h1]
  · intro h1 h2
    unfold validate
    rw [if_neg (fun hc => hc h1), if_pos h2]
  · intro h1 h2 h3
    unfold validate
    rw [if_neg (fun hc => hc h1), if_neg (fun hc => hc h2), if_pos h3]
  · intro h1 h2 h3
    unfold validate
    rw [if_neg (fun hc => hc h1), if_neg (fun hc => hc h2),
      if_neg (fun hc => hc h3)]

/-- Witness for C3: a proof whose carried block hash is empty cannot match
the 32-byte header hash, so validate fails with IncorrectBodyHash. -/
theorem C3_witness :
    ([] : List Nat) ≠ blockHeaderHash headerMissingBaseFee ∧
      validate
        { block_header := headerMissingBaseFee
          block_hash := []
          transaction_receipt :=
            { bloom := List.replicate 256 0
              receipt :=
                { tx_type := .Legacy
                  success := true
                  cumulative_gas_used := 0
                  logs := [] } }
          transaction_receipt_hash := []
          merkle_proof_of_receipt := ⟨[], []⟩ } =
        .error (.IncorrectBodyHash []
          (blockHeaderHash headerMissingBaseFee)) := by
  have hne : ([] : List Nat) ≠ blockHeaderHash headerMissingBaseFee := by
    intro hc
    have hl := congrArg List.length hc
    unfold blockHeaderHash at hl
    rw [keccak256_length] at hl
    simp at hl
  exact ⟨hne,
    (C3_validate_cascade
      { block_header := headerMissingBaseFee
        block_hash := []
        transaction_receipt :=
          { bloom := List.replicate 256 0
            receipt :=
              { tx_type := .Legacy
                success := true
                cumulative_gas_used := 0
                logs := [] } }
        transaction_receipt_hash := []
        merkle_proof_of_receipt := ⟨[], []⟩ }).1 hne⟩

end Relayer
